import Mathlib

/-!
Verification of the mod-configuration helper scripts of
`project-zomboid-server-docker` (`process_mods.py`, `init/update_server_ini.py`,
`init/update_server_ini_map.py`, `init/cleanup.py`).

Files are modelled as lists of lines; a line is a list of characters with its
newline terminator removed.  The regular expressions used by the scripts are
modelled by hand-written matching functions (the character classes involved are
disjoint, so the greedy matchers below coincide with Python's backtracking
semantics; this is noted where relevant).  Python's `str.strip` is modelled over
the ASCII whitespace characters, which are the only whitespace characters these
files contain.
-/

namespace PZ

/-- A Python string / file line: list of characters (newline terminator removed). -/
abbrev Str := List Char

/-- The ASCII whitespace characters stripped by Python's `str.strip()` /
matched by the regex class `\s`. -/
def pyIsSpace (c : Char) : Bool :=
  c == ' ' || c == '\t' || c == '\n' || c == '\r' || c == '\x0b' || c == '\x0c'

/-- Python `str.lstrip()`. -/
def lstrip (l : Str) : Str := l.dropWhile pyIsSpace

/-- Python `str.rstrip()`. -/
def rstrip (l : Str) : Str := (l.reverse.dropWhile pyIsSpace).reverse

/-- Python `str.strip()`. -/
def strip (l : Str) : Str := rstrip (lstrip l)

/-- Case-insensitive literal match: consume `lit` (given lower-case) from the
front of `s`, returning the rest on success.  Models a literal fragment of a
`(?i)` regex. -/
def dropLitCI : Str → Str → Option Str
  | [], s => some s
  | _, [] => none
  | c :: lit, d :: s => if d.toLower == c then dropLitCI lit s else none

/-- `\s+`: require at least one whitespace character, then consume the maximal
whitespace run (no backtracking is needed because the following literal
fragments never start with whitespace). -/
def dropSpaces1 : Str → Option Str
  | [] => none
  | c :: rest => if pyIsSpace c then some (rest.dropWhile pyIsSpace) else none

def workshopLit : Str := "workshop".toList
def idLit : Str := "id".toList
def modLit : Str := "mod".toList

/-- Model of `re.match(r"(?i)^workshop\s+id\s*:\s*(\S+)", line)`, returning
group 1 (`process_mods.py`, `parse_mods_blocks`). -/
def matchWorkshopId (line : Str) : Option Str := do
  let s ← dropLitCI workshopLit line
  let s ← dropSpaces1 s
  let s ← dropLitCI idLit s
  match s.dropWhile pyIsSpace with
  | ':' :: s2 =>
    let g := (s2.dropWhile pyIsSpace).takeWhile (fun c => !pyIsSpace c)
    if g.isEmpty then none else some g
  | _ => none

/-- Model of `re.match(r"(?i)^mod\s+id\s*:\s*(.+)", line)`, returning group 1
(`process_mods.py`, `parse_mods_blocks`).  The callers pass stripped lines, so
the group never ends in whitespace; if the tail after the colon is nonempty
whitespace only, the backtracking `\s*(.+)` leaves its last character for the
group, which is reproduced below. -/
def matchModId (line : Str) : Option Str := do
  let s ← dropLitCI modLit line
  let s ← dropSpaces1 s
  let s ← dropLitCI idLit s
  match s.dropWhile pyIsSpace with
  | ':' :: s2 =>
    let g := s2.dropWhile pyIsSpace
    if !g.isEmpty then some g
    else if !s2.isEmpty then some (s2.drop (s2.length - 1))
    else none
  | _ => none

/-- One `Workshop ID:` block of `mods.txt` (`process_mods.py`, `ModBlock`). -/
structure ModBlock where
  workshop_id : Str
  mod_ids : List Str
deriving DecidableEq, Repr

def dashesLine : Str := "---".toList

/-- Worker for `parse_mods_blocks`: the Python loop carries the list of blocks
built so far (to which the current block belongs) and mutates the current
block in place; here finished blocks are emitted on the left and `cur` is the
still-mutable current block. -/
def parseBlocksGo : List Str → Option ModBlock → List ModBlock
  | [], cur => cur.toList
  | raw :: rest, cur =>
    let line := strip raw
    if line.isEmpty || line.head? == some '#' then parseBlocksGo rest cur
    else if line == dashesLine then cur.toList ++ parseBlocksGo rest none
    else
      match matchWorkshopId line with
      | some wid => cur.toList ++ parseBlocksGo rest (some ⟨wid, []⟩)
      | none =>
        match cur with
        | none => parseBlocksGo rest none
        | some b =>
          match matchModId line with
          | some g =>
            let mid := strip g
            if !mid.isEmpty && mid ∉ b.mod_ids then
              parseBlocksGo rest (some ⟨b.workshop_id, b.mod_ids ++ [mid]⟩)
            else parseBlocksGo rest (some b)
          | none => parseBlocksGo rest (some b)

/-- `process_mods.py`, `parse_mods_blocks`: parse a `mods.txt` document into
its ordered list of blocks. -/
def parse_mods_blocks (lines : List Str) : List ModBlock :=
  parseBlocksGo lines none

/-- `process_mods.py`, `parse_mods_txt`: collect `(workshop_ids, mod_ids)` over
all blocks, silently de-duplicating while preserving first-occurrence order.
The Python `seen_workshops` / `seen_mods` sets always contain exactly the
elements of the corresponding accumulator list, so membership is tested on the
accumulator directly. -/
def parse_mods_txt (lines : List Str) : List Str × List Str :=
  let blocks := parse_mods_blocks lines
  let ws := blocks.foldl
    (fun acc b => if b.workshop_id ∈ acc then acc else acc ++ [b.workshop_id]) []
  let ms := blocks.foldl
    (fun acc b =>
      b.mod_ids.foldl
        (fun acc2 mid =>
          if !mid.isEmpty && mid ∉ acc2 then acc2 ++ [mid] else acc2)
        acc)
    []
  (ws, ms)

/-- Specification-side helper: keep the first occurrence of every element of a
list, dropping later duplicates.  Used to state what the de-duplication in
`parse_mods_txt` computes. -/
def firstOcc {α : Type} [DecidableEq α] : List α → List α
  | [] => []
  | x :: l => x :: firstOcc (l.filter (fun y => y ≠ x))
termination_by l => l.length
decreasing_by
  simp only [List.length_cons]
  exact Nat.lt_succ_of_le (List.length_filter_le _ _)

/-- De-duplication with an explicit `seen` set, as Python's set-guarded loops
do it (structurally recursive, so it evaluates by `decide`). -/
def pyDedupAux {α : Type} [DecidableEq α] : List α → List α → List α
  | [], _ => []
  | x :: l, seen =>
    if x ∈ seen then pyDedupAux l seen else x :: pyDedupAux l (x :: seen)

/-- First-occurrence de-duplication of a list (Python set-membership guard). -/
def pyDedup {α : Type} [DecidableEq α] (l : List α) : List α := pyDedupAux l []

/-! ## Topological-order auto-sort (`process_mods.py`, `ensure_topological_order`)

The requires map collected from the `mod.info` files is a Python dict
`{mod_id: [required_mod_id, ...]}`; it is modelled as an association list with
pairwise-distinct keys (as `collect_mod_info` constructs it). -/

/-- The failure conditions of `ensure_topological_order`; the script prints a
message naming the offending mods and exits with status 1.  The error payload
records exactly the identifiers interpolated into the message. -/
inductive TopoError
  | missingDep (x y : Str)
  | cycle (unresolved : List Str)
deriving DecidableEq, Repr

/-- `requires_map.get(mod_id, [])`. -/
def reqGet (rm : List (Str × List Str)) (m : Str) : List Str :=
  (rm.lookup m).getD []

/-- `dep in requires_map` (dict key membership). -/
def reqHas (rm : List (Str × List Str)) (d : Str) : Bool :=
  (rm.lookup d).isSome

/-- The first `(mod_id, dep)` pair, in iteration order, with `dep` a known
dependency (`dep in requires_map`) that is not listed in `mod_ids`; the loop
building `prereqs` calls `_fatal` on the first such pair. -/
def findDepViolation (mod_ids : List Str) (rm : List (Str × List Str)) :
    Option (Str × Str) :=
  mod_ids.findSome? (fun x =>
    (reqGet rm x).findSome? (fun d =>
      if reqHas rm d ∧ d ∉ mod_ids then some (x, d) else none))

/-- `prereqs[mod_id]`: the set of known dependencies of `mod_id`
(`dep not in requires_map → continue`), modelled as its first-occurrence list.
Only the membership and the cardinality of this set are observable in the
algorithm, so the iteration order of the Python set never matters. -/
def prereqsOf (rm : List (Str × List Str)) (m : Str) : List Str :=
  pyDedup ((reqGet rm m).filter (fun d => reqHas rm d))

/-- The fast-path check: does the existing order already satisfy every
constraint?  `original_pos` is modelled by `List.indexOf`, which agrees with
the Python `enumerate` dict on the duplicate-free lists `parse_mods_txt`
produces. -/
def depsOrdered (mod_ids : List Str) (rm : List (Str × List Str)) : Bool :=
  mod_ids.all (fun m =>
    (prereqsOf rm m).all (fun d => mod_ids.indexOf d < mod_ids.indexOf m))

/-- Pop the entry with the smallest position from the ready list: the model of
`heapq.heappop` over `(original_pos[mid], mid)` tuples.  The positions of
distinct ready mods are distinct, so comparison by position alone matches the
lexicographic tuple order. -/
def popMin (pos : Str → Nat) : List Str → Option (Str × List Str)
  | [] => none
  | m :: rest =>
    match popMin pos rest with
    | none => some (m, [])
    | some (m2, rest2) =>
      if pos m ≤ pos m2 then some (m, rest) else some (m2, m :: rest2)

/-- One pop's bookkeeping: decrement `in_degree` of every dependent of the
popped mod and push those that reach zero (`heapq.heappush`; the position in
the ready list is irrelevant because `popMin` scans for the minimum).
In-degrees are integers, as in Python, so a degree can go negative and a mod
is pushed at most once. -/
def kahnStepFold (indeg : Str → Int) (heap : List Str) (deps : List Str) :
    (Str → Int) × List Str :=
  deps.foldl
    (fun st dep =>
      let nd := st.1 dep - 1
      (fun x => if x = dep then nd else st.1 x,
       if nd = 0 then st.2 ++ [dep] else st.2))
    (indeg, heap)

/-- The `while heap:` loop of the stable Kahn sort.  `fuel` bounds the number
of pops; for the duplicate-free inputs the script constructs, every mod enters
the ready list at most once, so `mod_ids.length` pops always drain it and the
fuelled loop coincides with the Python loop. -/
def kahnLoop (pos : Str → Nat) (dependents : Str → List Str) :
    Nat → List Str → (Str → Int) → List Str → List Str
  | 0, _, _, acc => acc.reverse
  | fuel + 1, heap, indeg, acc =>
    match popMin pos heap with
    | none => acc.reverse
    | some (m, rest) =>
      let st := kahnStepFold indeg rest (dependents m)
      kahnLoop pos dependents fuel st.2 st.1 (m :: acc)

/-- `process_mods.py`, `ensure_topological_order`.  Returns the final order and
the list of moved mods (each reorder note interpolates exactly the moved mod
and its two positions; the note is modelled by the moved mod id), or the error
the script exits with. -/
def ensure_topological_order (mod_ids : List Str) (rm : List (Str × List Str)) :
    Except TopoError (List Str × List Str) :=
  match findDepViolation mod_ids rm with
  | some (x, y) => .error (.missingDep x y)
  | none =>
    if depsOrdered mod_ids rm then .ok (mod_ids, [])
    else
      let pos : Str → Nat := fun m => mod_ids.indexOf m
      let dependents : Str → List Str :=
        fun d => mod_ids.filter (fun m => d ∈ prereqsOf rm m)
      let indeg0 : Str → Int := fun m => ((prereqsOf rm m).length : Int)
      let heap0 := mod_ids.filter (fun m => indeg0 m = 0)
      let result := kahnLoop pos dependents mod_ids.length heap0 indeg0 []
      if result.length = mod_ids.length then
        .ok (result, mod_ids.filter (fun m => pos m ≠ result.indexOf m))
      else .error (.cycle (mod_ids.filter (fun m => m ∉ result)))

/-! ## The workshop cache on disk

The scripts walk `workshop_root/<workshop_id>/` with `rglob`.  The directory
tree of one workshop item is abstracted to the data the scripts read from it:
the parsed contents of each `mod.info` file (in `rglob` order), the label
`_mod_label_for_dir` derives from the first `mod.info`'s `name=` line and the
directory name, and the `X_Y.lotheader` file names found anywhere under the
item.  A missing item directory is `none`. -/

/-- The fields of one parsed `mod.info` file that the scripts consume:
`id=` (as read, before stripping), the comma-split `require=` list, and the
numbers of its `tiledef=<packName> <number>` lines.  The `tiledef` regex
captures `(\d+)`, so the numbers are naturals. -/
structure ModInfoData where
  id : Str
  require : List Str
  tiledefs : List Nat
deriving DecidableEq, Repr

/-- One workshop item directory as the scripts observe it. -/
structure ItemDir where
  label : Str
  modinfos : List ModInfoData
  lotheaders : List (Nat × Nat)
deriving DecidableEq, Repr

/-- `process_mods.py`, `collect_mod_info`: walk each listed workshop item and
read every `mod.info` inside, producing the requires map and the per-item mod
lists.  Missing directories are skipped; the first `mod.info` claiming a mod id
wins globally (`seen_global`). -/
def collect_mod_info (fs : Str → Option ItemDir) (workshop_ids : List Str) :
    List (Str × List Str) × List (Str × List Str) :=
  let step := fun (st : List (Str × List Str) × List (Str × List Str) × List Str) wid =>
    match fs wid with
    | none => st
    | some item =>
      let inner := item.modinfos.foldl
        (fun (st2 : List (Str × List Str) × List Str × List Str) mi =>
          let mod_id := strip mi.id
          if mod_id.isEmpty then st2
          else
            let req := if mod_id ∈ st2.2.1 then st2.1
              else st2.1 ++ [(mod_id, mi.require)]
            let seen := if mod_id ∈ st2.2.1 then st2.2.1
              else st2.2.1 ++ [mod_id]
            let item_mods := if mod_id ∈ st2.2.2 then st2.2.2
              else st2.2.2 ++ [mod_id]
            (req, seen, item_mods))
        (st.1, st.2.2, [])
      let wtm := if inner.2.2.isEmpty then st.2.1 else st.2.1 ++ [(wid, inner.2.2)]
      (inner.1, wtm, inner.2.1)
  let res := workshop_ids.foldl step ([], [], [])
  (res.1, res.2.1)

/-! ## Conflict detectors (`check_tiledef_conflicts`, `check_map_coord_conflicts`)

Both detectors accumulate `claim value → [label, ...]` into an insertion-ordered
dict (`defaultdict(list)`), de-duplicating claims within one workshop item with
a per-item `seen` set, then keep only values claimed by more than one item. -/

/-- `defaultdict(list)` append: `m[k].append(v)`, creating the key at the end
on first touch (keys keep dict insertion order). -/
def assocAppend {κ ν : Type} [DecidableEq κ] (m : List (κ × List ν)) (k : κ) (v : ν) :
    List (κ × List ν) :=
  if m.any (fun p => p.1 = k) then
    m.map (fun p => if p.1 = k then (p.1, p.2 ++ [v]) else p)
  else m ++ [(k, [v])]

/-- Process one workshop item's claim list: append `label` under each claim
value not already seen for this item. -/
def itemClaimFold {κ : Type} [DecidableEq κ] (label : Str)
    (m : List (κ × List Str)) (claims : List κ) : List (κ × List Str) :=
  (claims.foldl
    (fun (st : List (κ × List Str) × List κ) c =>
      if c ∈ st.2 then st else (assocAppend st.1 c label, c :: st.2))
    (m, [])).1

/-- The shared accumulation loop of both detectors over the listed workshop
items (`none` = directory missing, skipped). -/
def accumulateClaims {κ : Type} [DecidableEq κ]
    (items : List (Option (Str × List κ))) : List (κ × List Str) :=
  items.foldl
    (fun m it =>
      match it with
      | none => m
      | some (label, claims) => itemClaimFold label m claims)
    []

/-- `process_mods.py`, `check_tiledef_conflicts`: `{fileNumber: [mod_label, ...]}`
restricted to numbers claimed by more than one active workshop item, as an
insertion-ordered association list. -/
def check_tiledef_conflicts (workshop_ids : List Str) (fs : Str → Option ItemDir) :
    List (Nat × List Str) :=
  (accumulateClaims (workshop_ids.map (fun wid =>
      (fs wid).map (fun it => (it.label, it.modinfos.flatMap (fun mi => mi.tiledefs)))))).filter
    (fun p => p.2.length > 1)

/-- `process_mods.py`, `check_map_coord_conflicts`: `{(cx, cy): [mod_label, ...]}`
restricted to chunk coordinates provided by more than one workshop item. -/
def check_map_coord_conflicts (workshop_ids : List Str) (fs : Str → Option ItemDir) :
    List ((Nat × Nat) × List Str) :=
  (accumulateClaims (workshop_ids.map (fun wid =>
      (fs wid).map (fun it => (it.label, it.lotheaders))))).filter
    (fun p => p.2.length > 1)

/-! ## `init/update_server_ini_map.py`, `detect_conflicts`

The init-pipeline coordinate-conflict detector: it fails (raises
`SystemExit(2)`) when two distinct maps claim the same cell, before the ini is
rewritten.  Its `.lotheader` regex allows negative coordinates. -/

/-- One discovered map folder with its cell claims (`MapSource` plus the
coordinates of its `X_Y.lotheader` files; the per-claim `source_file` is used
only in the error text and is omitted). -/
structure MapSrc where
  map_name : Str
  workshop_id : Str
  cells : List (Int × Int)
deriving DecidableEq, Repr

/-- `detect_conflicts`: `true` means an overlap was found and the script
aborts with exit status 2 (before any ini write).  A cell is in conflict when
the distinct `(map_name, workshop_id)` pairs claiming it number more than
one. -/
def detect_conflicts (map_sources : List MapSrc) : Bool :=
  let claims := map_sources.flatMap
    (fun s => s.cells.map (fun c => (c, s.map_name, s.workshop_id)))
  let by_cell := claims.foldl
    (fun m cl => assocAppend m cl.1 cl.2) ([] : List ((Int × Int) × List (Str × Str)))
  let overlaps := by_cell.filter (fun p => (pyDedup p.2).length > 1)
  !overlaps.isEmpty

/-! ## Rewriting `mods.txt` (`process_mods.py`, `rewrite_mods_txt`) -/

/-- Stable sort by a position key, modelling Python's stable `sorted(...,
key=...)`: an element is inserted before the first element with a key not
smaller than its own, so ties keep their original relative order. -/
def insertByKey (key : Str → Nat) (x : Str) : List Str → List Str
  | [] => [x]
  | y :: l => if key x ≤ key y then x :: y :: l else y :: insertByKey key x l

/-- Stable insertion sort by a position key (extensionally equal to Python's
stable `sorted` for any key). -/
def sortByKey (key : Str → Nat) : List Str → List Str
  | [] => []
  | x :: l => insertByKey key x (sortByKey key l)

def workshopIdLinePre : Str := "Workshop ID: ".toList
def modIdLinePre : Str := "Mod ID: ".toList
def orphanHeaderLine : Str :=
  "# Mod IDs not yet attributed to any downloaded workshop item".toList

/-- The `out_lines` the rewrite emits: one block per workshop id, then the
orphan section (if any) under a comment header. -/
def renderOutLines (workshop_ids : List Str) (groups : Str → List Str)
    (orphans : List Str) : List Str :=
  workshop_ids.flatMap
    (fun wid =>
      (workshopIdLinePre ++ wid) ::
        ((groups wid).map (fun m => modIdLinePre ++ m) ++ [dashesLine, []]))
  ++ (if orphans.isEmpty then []
      else orphanHeaderLine ::
        (orphans.map (fun m => modIdLinePre ++ m) ++ [dashesLine, []]))

/-- `"\n".join(out_lines).rstrip("\n") + "\n"` read back as lines: the
trailing run of empty lines is dropped (no other line of `out_lines` is
empty, and `rstrip("\n")` only removes newline characters). -/
def dropTrailingBlanks (lines : List Str) : List Str :=
  (lines.reverse.dropWhile (fun l => l.isEmpty)).reverse

/-- The result of `rewrite_mods_txt`: the `changed` flag it returns, the file
content after the call (`out = the input lines` when nothing was written), and
the workshop ids of the `validation_warnings` (each warning string
interpolates exactly one workshop id). -/
structure RewriteResult where
  changed : Bool
  out : List Str
  warn_wids : List Str
deriving DecidableEq, Repr

/-- The reverse `mod_id → workshop_id` pairs behind the `mod_to_workshop`
dict (built last-wins; only key membership is consumed). -/
def mtwPairs (workshop_to_mods : List (Str × List Str)) : List (Str × Str) :=
  workshop_to_mods.flatMap (fun p => p.2.map (fun m => (m, p.1)))

/-- `_group_for wid`: the enabled mod ids of the workshop item, in stable
topo-sorted-position order.  `sorted_pos` is modelled by `List.indexOf`, which
agrees with the Python `enumerate` dict on duplicate-free
`mod_ids_sorted`. -/
def groupFor (workshop_to_mods : List (Str × List Str)) (mod_ids_sorted : List Str)
    (wid : Str) : List Str :=
  let cache := ((workshop_to_mods.lookup wid).getD [])
  if cache.isEmpty then []
  else sortByKey (fun m => mod_ids_sorted.indexOf m)
    (cache.filter (fun m => m ∈ mod_ids_sorted))

/-- `new_orphans`: listed mod ids not attributable to any on-disk item. -/
def newOrphans (workshop_to_mods : List (Str × List Str)) (mod_ids_sorted : List Str) :
    List Str :=
  mod_ids_sorted.filter (fun m => !(mtwPairs workshop_to_mods).any (fun p => p.1 = m))

/-- The dict `{b.workshop_id: b.mod_ids}` over the parsed blocks (a later
block with the same workshop id overwrites an earlier one, hence the reversed
lookup). -/
def blockDict (blocks : List ModBlock) (wid : Str) : List Str :=
  (((blocks.map (fun b => (b.workshop_id, b.mod_ids))).reverse.lookup wid).getD [])

/-- The change test of `rewrite_mods_txt`: does the parsed existing state
differ from the computed target state? -/
def rewriteChanged (blocks : List ModBlock) (workshop_ids mod_ids_sorted : List Str)
    (workshop_to_mods : List (Str × List Str)) : Prop :=
  blocks.map (fun b => b.workshop_id) ≠ workshop_ids
    ∨ (∃ wid ∈ workshop_ids,
        blockDict blocks wid ≠ groupFor workshop_to_mods mod_ids_sorted wid)
    ∨ (blocks.filter (fun b => b.workshop_id ∉ workshop_ids)).flatMap
        (fun b => b.mod_ids) ≠ newOrphans workshop_to_mods mod_ids_sorted

instance (blocks : List ModBlock) (workshop_ids mod_ids_sorted : List Str)
    (workshop_to_mods : List (Str × List Str)) :
    Decidable (rewriteChanged blocks workshop_ids mod_ids_sorted workshop_to_mods) := by
  rw [rewriteChanged]
  infer_instance

/-- `process_mods.py`, `rewrite_mods_txt`.  `workshop_to_mods` is the dict
produced by `collect_mod_info` (pairwise-distinct keys, looked up with
`List.lookup`). -/
def rewrite_mods_txt (fileLines : List Str) (workshop_ids : List Str)
    (mod_ids_sorted : List Str) (workshop_to_mods : List (Str × List Str)) :
    RewriteResult :=
  let blocks := parse_mods_blocks fileLines
  let warn_wids := workshop_ids.filter (fun wid =>
    (groupFor workshop_to_mods mod_ids_sorted wid).isEmpty
      && ((workshop_to_mods.lookup wid).getD []).isEmpty
      && (blockDict blocks wid).isEmpty)
  if rewriteChanged blocks workshop_ids mod_ids_sorted workshop_to_mods then
    ⟨true, dropTrailingBlanks (renderOutLines workshop_ids
        (groupFor workshop_to_mods mod_ids_sorted)
        (newOrphans workshop_to_mods mod_ids_sorted)),
      warn_wids⟩
  else ⟨false, fileLines, warn_wids⟩

/-! ## Rewriting `default.ini` (`process_mods.py`, `update_ini`) -/

/-- `re.match(r"[A-Za-z][A-Za-z0-9_]*\s*=", s)`: does the line look like a new
`key=value` assignment?  The character classes and `=` are disjoint, so the
greedy scan below matches the regex. -/
def matchesKeyVal (s : Str) : Bool :=
  match s with
  | [] => false
  | c :: rest =>
    if c.isAlpha then
      match (rest.dropWhile (fun d => d.isAlpha || d.isDigit || d == '_')).dropWhile
          pyIsSpace with
      | '=' :: _ => true
      | _ => false
    else false

/-- `_is_continuation`: non-blank, not a comment, and not a new `key=value`
assignment. -/
def isContinuation (s : Str) : Bool :=
  !s.isEmpty && !(s.head? == some '#') && !matchesKeyVal s

/-- `re.match(r"(?i)^<key>\s*=", s)` for a literal key given lower-case. -/
def matchKeyCI (key : Str) (s : Str) : Bool :=
  match dropLitCI key s with
  | none => false
  | some rest =>
    match rest.dropWhile pyIsSpace with
    | '=' :: _ => true
    | _ => false

def modsKey : Str := "mods".toList
def workshopItemsKey : Str := "workshopitems".toList
def mapKey : Str := "map".toList
def modsEq : Str := "Mods=".toList
def workshopItemsEq : Str := "WorkshopItems=".toList
def mapEq : Str := "Map=".toList

/-- Strip the NUL bytes `update_ini` removes before scanning (removing `\x00`
from the whole text never merges or splits lines). -/
def stripNul (l : Str) : Str := l.filter (fun c => c != '\x00')

/-- The line loop of `update_ini`: state is `(wrote_mods, wrote_workshop,
skip_continuation)`; `current_skip_key` is set but never read and is omitted.
Each raw line is newline-free in this model, so `raw.rstrip("\r\n")` is the
line itself. -/
def updateIniGo (mods_csv workshop_csv : Str) :
    List Str → Bool → Bool → Bool → List Str
  | [], wrote_mods, wrote_ws, _ =>
    (if !wrote_mods then [modsEq ++ mods_csv] else [])
      ++ (if !wrote_ws then [workshopItemsEq ++ workshop_csv] else [])
  | raw :: rest, wrote_mods, wrote_ws, skip =>
    if skip && isContinuation raw then
      updateIniGo mods_csv workshop_csv rest wrote_mods wrote_ws true
    else if matchKeyCI modsKey raw then
      (modsEq ++ mods_csv) :: updateIniGo mods_csv workshop_csv rest true wrote_ws true
    else if matchKeyCI workshopItemsKey raw then
      (workshopItemsEq ++ workshop_csv)
        :: updateIniGo mods_csv workshop_csv rest wrote_mods true true
    else raw :: updateIniGo mods_csv workshop_csv rest wrote_mods wrote_ws false

/-- `process_mods.py`, `update_ini`: the content written back over the ini
document. -/
def update_ini (lines : List Str) (mods_csv workshop_csv : Str) : List Str :=
  updateIniGo mods_csv workshop_csv (lines.map stripNul) false false false

/-- The line loop of `update_map_line` (same skipping discipline, single
key). -/
def updateMapGo (map_csv : Str) : List Str → Bool → Bool → List Str
  | [], wrote, _ => if !wrote then [mapEq ++ map_csv] else []
  | raw :: rest, wrote, skip =>
    if skip && isContinuation raw then updateMapGo map_csv rest wrote true
    else if matchKeyCI mapKey raw then
      (mapEq ++ map_csv) :: updateMapGo map_csv rest true true
    else raw :: updateMapGo map_csv rest wrote false

/-- `process_mods.py`, `update_map_line`: the content written back over the
ini document. -/
def update_map_line (lines : List Str) (map_csv : Str) : List Str :=
  updateMapGo map_csv (lines.map stripNul) false false

/-! ## File-write traces

Whether a rewrite is atomic is a property of the sequence of filesystem
operations a function performs, modelled as a trace. -/

/-- One observable filesystem mutation. -/
inductive FsOp
  | write (path : Str) (content : List Str)
  | rename (src dst : Str)
deriving DecidableEq, Repr

/-- The write trace of `update_ini`: a single direct
`ini_path.write_text(...)` of the new content — no temporary file, no
rename. -/
def update_ini_ops (ini_path : Str) (lines : List Str)
    (mods_csv workshop_csv : Str) : List FsOp :=
  [.write ini_path (update_ini lines mods_csv workshop_csv)]

def tmpSuffix : Str := ".tmp".toList

/-- The write trace of `init/cleanup.py`, `save_json`: write the rendered JSON
to `path.with_suffix(path.suffix + ".tmp")` (= the original path with `.tmp`
appended), then `tmp.replace(path)`.  The JSON rendering of the registry is
abstracted as the content. -/
def save_json_ops (path : Str) (content : List Str) : List FsOp :=
  [.write (path ++ tmpSuffix) content, .rename (path ++ tmpSuffix) path]

/-- Does a trace follow the write-to-temporary-sibling-then-rename-over-the-
original pattern for `target`? -/
def isAtomicReplace (target : Str) (ops : List FsOp) : Bool :=
  match ops with
  | [.write p _, .rename src dst] => p == src && !(src == target) && dst == target
  | _ => false

/-! ## The `main` pipeline of `process_mods.py` after argument parsing

Modelled up to and including the first configuration-file write (`update_ini`).
The later steps — the `Map=` collection and write and the optional
`PublicName=` write — happen after that first write and are not needed to
settle whether a conflict aborts the run before any write. -/

/-- A configuration-file write performed by `main`. -/
inductive WriteEvent
  | modsTxt (lines : List Str)
  | ini (lines : List Str)
deriving DecidableEq, Repr

/-- `";".join(items)` over line fragments. -/
def joinSemi (items : List Str) : Str :=
  (items.intersperse (";".toList)).flatten

/-- `main` of `process_mods.py` from the parsed inputs to the `update_ini`
write: returns the exit status on abort, or the list of file writes performed.
Both conflict reports are computed and printed, and the run continues
regardless of either (`"WARNING: Continuing despite map conflicts"`). -/
def processModsMain (modsTxtLines iniLines : List Str)
    (fs : Str → Option ItemDir) : Except Nat (List WriteEvent) :=
  let parsed := parse_mods_txt modsTxtLines
  let workshop_ids := parsed.1
  let mod_ids := parsed.2
  if workshop_ids.isEmpty then .error 1
  else if mod_ids.isEmpty then .error 1
  else
    let collected := collect_mod_info fs workshop_ids
    let requires_map := collected.1
    let workshop_to_mods := collected.2
    -- Step 2b: both conflict reports are computed here; the script prints
    -- them as warnings and continues either way.
    let _tiledef_conflicts := check_tiledef_conflicts workshop_ids fs
    let _map_coord_conflicts := check_map_coord_conflicts workshop_ids fs
    match ensure_topological_order mod_ids requires_map with
    | .error _ => .error 1
    | .ok (sorted_ids, _notes) =>
      let r := rewrite_mods_txt modsTxtLines workshop_ids sorted_ids workshop_to_mods
      -- re-read after a rewrite
      let reread := if r.changed then parse_mods_txt r.out else (workshop_ids, sorted_ids)
      let mods_csv := joinSemi (reread.2.map (fun m => '\\' :: m))
      let workshop_csv := joinSemi reread.1
      .ok ((if r.changed then [WriteEvent.modsTxt r.out] else [])
        ++ [WriteEvent.ini (update_ini iniLines mods_csv workshop_csv)])

/-- Did the run reach a configuration-file (ini) write? -/
def okHasIniWrite : Except Nat (List WriteEvent) → Bool
  | .error _ => false
  | .ok ws => ws.any (fun e => match e with | .ini _ => true | _ => false)

/-! ## Concrete inputs used by the individual claims -/

def idA : Str := "A".toList
def idB : Str := "B".toList
def idC : Str := "C".toList
def idD : Str := "D".toList
def idX : Str := "X".toList
def idY : Str := "Y".toList

/-- Three mods forming the cycle A→B→C→A (each requires the next). -/
def cycRM : List (Str × List Str) := [(idA, [idB]), (idB, [idC]), (idC, [idA])]

/-- The same cycle next to an unconstrained mod D. -/
def cycRM2 : List (Str × List Str) := (idD, []) :: cycRM

/-- B requires A. -/
def chainRM : List (Str × List Str) := [(idA, []), (idB, [idA])]

/-- X declares a known prerequisite Y that is not in the enabled list. -/
def c5RM : List (Str × List Str) := [(idX, [idY]), (idY, [])]
def c5Mods : List Str := [idX]

def widA : Str := "100".toList
def widB : Str := "200".toList
def labA : Str := "Mod A [100]".toList
def labB : Str := "Mod B [200]".toList

/-- Two downloaded workshop items; both claim map cell (5,7) and tiledef
fileNumber 7. -/
def overlappingFs : Str → Option ItemDir := fun w =>
  if w = widA then some ⟨labA, [⟨idA, [], [7]⟩], [(5, 7)]⟩
  else if w = widB then some ⟨labB, [⟨idB, [], [7]⟩], [(5, 7)]⟩
  else none

/-- One workshop item whose two metadata files both repeat the same claims. -/
def repeatingFs : Str → Option ItemDir := fun w =>
  if w = widA then some ⟨labA, [⟨idA, [], [7]⟩, ⟨idC, [], [7]⟩], [(5, 7), (5, 7)]⟩
  else none

/-- A `mods.txt` naming the two overlapping items. -/
def overlappingModsTxt : List Str :=
  [(workshopIdLinePre ++ widA), (modIdLinePre ++ idA), dashesLine,
   (workshopIdLinePre ++ widB), (modIdLinePre ++ idB), dashesLine]

/-- A minimal ini document. -/
def plainIni : List Str := [modsEq, workshopItemsEq]

/-- The two overlapping map sources as `update_server_ini_map.py` discovers
them. -/
def overlappingSrcs : List MapSrc :=
  [⟨("M1".toList), widA, [(5, 7)]⟩, ⟨("M2".toList), widB, [(5, 7)]⟩]

def iniPathLit : Str := "/home/steam/Zomboid/Server/default.ini".toList

/-- A `mods.txt` whose single block has no mod lines yet. -/
def c2File : List Str := [workshopIdLinePre ++ widA]

def orphanId : Str := "orphan".toList

/-- The C9 document: a multi-line `Mods=` value followed by unrelated lines. -/
def c9Doc : List Str :=
  [modsEq, ("a".toList), ("b".toList), ("# sep".toList),
   (workshopItemsEq ++ ("1".toList))]

/-! ## Specification-side predicates and invariants -/

/-- Well-formedness of a parsed block: its mod list is duplicate-free and its
entries are nonempty. -/
def wfBlock (b : ModBlock) : Prop :=
  b.mod_ids.Nodup ∧ ∀ m ∈ b.mod_ids, m.isEmpty = false

/-- Dict lookup in the accumulated conflict map. -/
def lookupConf {κ : Type} [DecidableEq κ] (m : List (κ × List Str)) (k : κ) :
    Option (List Str) :=
  (m.find? (fun p => p.1 = k)).map (fun p => p.2)

/-- The labels of the listed packages (in list order) whose metadata files
claim tiledef fileNumber `n`. -/
def tiledefOwners (workshop_ids : List Str) (fs : Str → Option ItemDir) (n : Nat) :
    List Str :=
  workshop_ids.filterMap (fun wid =>
    match fs wid with
    | none => none
    | some it =>
      if n ∈ it.modinfos.flatMap (fun mi => mi.tiledefs) then some it.label else none)

/-- The labels of the listed packages (in list order) whose map files claim
grid cell `c`. -/
def coordOwners (workshop_ids : List Str) (fs : Str → Option ItemDir) (c : Nat × Nat) :
    List Str :=
  workshop_ids.filterMap (fun wid =>
    match fs wid with
    | none => none
    | some it => if c ∈ it.lotheaders then some it.label else none)

/-- Package `w` exists on disk and claims grid cell `c`. -/
def claimsCell (fs : Str → Option ItemDir) (w : Str) (c : Nat × Nat) : Prop :=
  match fs w with
  | none => False
  | some it => c ∈ it.lotheaders

instance (fs : Str → Option ItemDir) (w : Str) (c : Nat × Nat) :
    Decidable (claimsCell fs w c) := by
  rw [claimsCell]
  cases fs w with
  | none => exact inferInstanceAs (Decidable False)
  | some it => exact inferInstanceAs (Decidable (c ∈ it.lotheaders))

/-- Owners contributed by a list of (possibly missing) items for one claim
value. -/
def ownersFromItems {κ : Type} [DecidableEq κ]
    (items : List (Option (Str × List κ))) (k : κ) : List Str :=
  items.filterMap (fun it =>
    match it with
    | none => none
    | some (lab, cls) => if k ∈ cls then some lab else none)

/-- Append-combine of an optional existing owner list with newly contributed
owners (absent key stays absent only when nothing is contributed). -/
def combineOwn (o : Option (List Str)) (l : List Str) : Option (List Str) :=
  match o, l with
  | none, [] => none
  | none, l => some l
  | some v, l => some (v ++ l)

/-- Each element's prerequisites all occur among the strictly later elements
(the accumulator of the Kahn loop is kept in reverse order, so "later in the
list" is "earlier in the final order"). -/
inductive Closed (P : Str → List Str) : List Str → Prop
  | nil : Closed P []
  | cons {x : Str} {l : List Str} :
      (∀ d ∈ P x, d ∈ l) → Closed P l → Closed P (x :: l)

/-- The loop invariant of the stable Kahn elimination: the accumulator (kept
reversed) is closed under prerequisites, ready mods have all prerequisites
accumulated, and every pending mod's in-degree counts its not-yet-accumulated
prerequisites. -/
structure KahnInv (mod_ids : List Str) (P : Str → List Str)
    (heap : List Str) (indeg : Str → Int) (acc : List Str) : Prop where
  heap_sub : ∀ x ∈ heap, x ∈ mod_ids
  acc_sub : ∀ x ∈ acc, x ∈ mod_ids
  heap_nd : heap.Nodup
  acc_nd : acc.Nodup
  disj : ∀ x ∈ heap, x ∉ acc
  ready : ∀ x ∈ heap, ∀ d ∈ P x, d ∈ acc
  closed : Closed P acc
  deg : ∀ x ∈ mod_ids, x ∉ acc →
    indeg x = (((P x).filter (fun d => d ∉ acc)).length : Int)

/-- A well-formed workshop id: nonempty and whitespace-free, as the `(\S+)`
capture produces. -/
def wfWid (w : Str) : Prop :=
  w ≠ [] ∧ ∀ c ∈ w, pyIsSpace c = false

/-- A well-formed mod id: nonempty with non-whitespace first and last
characters, as the stripped capture produces. -/
def wfMid (m : Str) : Prop :=
  m ≠ [] ∧ (m.head?.all (fun c => !pyIsSpace c)) = true
    ∧ (m.getLast?.all (fun c => !pyIsSpace c)) = true

instance (w : Str) : Decidable (wfWid w) := by
  rw [wfWid]
  infer_instance

instance (m : Str) : Decidable (wfMid m) := by
  rw [wfMid]
  infer_instance

/-! ## Helper lemmas -/

theorem pyDedupAux_mem {α : Type} [DecidableEq α] (l : List α) :
    ∀ (seen : List α) (a : α), a ∈ pyDedupAux l seen ↔ a ∈ l ∧ a ∉ seen := by
  induction l with
  | nil => intro seen a; simp [pyDedupAux]
  | cons x l ih =>
    intro seen a
    by_cases hx : x ∈ seen
    · rw [pyDedupAux, if_pos hx, ih]
      constructor
      · rintro ⟨h1, h2⟩; exact ⟨List.mem_cons_of_mem _ h1, h2⟩
      · rintro ⟨h1, h2⟩
        rcases List.mem_cons.1 h1 with rfl | h1
        · exact absurd hx h2
        · exact ⟨h1, h2⟩
    · rw [pyDedupAux, if_neg hx]
      simp only [List.mem_cons, ih (x :: seen) a]
      constructor
      · rintro (rfl | ⟨h1, h2⟩)
        · exact ⟨Or.inl rfl, hx⟩
        · exact ⟨Or.inr h1, fun hc => h2 (Or.inr hc)⟩
      · rintro ⟨h1 | h1, h2⟩
        · exact Or.inl h1
        · rcases eq_or_ne a x with rfl | hax
          · exact Or.inl rfl
          · exact Or.inr ⟨h1, fun hc => hc.elim (fun hh => hax hh) h2⟩

theorem pyDedup_mem {α : Type} [DecidableEq α] (l : List α) (a : α) :
    a ∈ pyDedup l ↔ a ∈ l := by
  rw [pyDedup, pyDedupAux_mem]; simp

theorem pyDedupAux_nodup {α : Type} [DecidableEq α] (l : List α) :
    ∀ seen : List α, (pyDedupAux l seen).Nodup := by
  induction l with
  | nil => intro seen; simp [pyDedupAux]
  | cons x l ih =>
    intro seen
    by_cases hx : x ∈ seen
    · rw [pyDedupAux, if_pos hx]; exact ih seen
    · rw [pyDedupAux, if_neg hx]
      refine List.nodup_cons.2 ⟨fun hc => ?_, ih (x :: seen)⟩
      exact ((pyDedupAux_mem l (x :: seen) x).1 hc).2 (List.mem_cons_self x seen)

theorem pyDedup_nodup {α : Type} [DecidableEq α] (l : List α) :
    (pyDedup l).Nodup := pyDedupAux_nodup l []

theorem mem_prereqsOf (rm : List (Str × List Str)) (m d : Str) :
    d ∈ prereqsOf rm m ↔ d ∈ reqGet rm m ∧ reqHas rm d = true := by
  rw [prereqsOf, pyDedup_mem, List.mem_filter]

/-! ## Claim C1 -/

/-- Claim C1 (code bug): at a run whose coordinate-conflict report is
non-empty — the two listed workshop items both provide map cell (5,7) — the
`process_mods.py` pipeline does **not** abort: it proceeds to the
`update_ini` configuration write (the script prints the conflicts as warnings
and continues, although its own step comment says "fatal on any conflict").
The init-pipeline detector `detect_conflicts` does abort on the same overlap,
before any ini write, as the claim demands. -/
theorem claim_C1 :
    check_map_coord_conflicts [widA, widB] overlappingFs = [((5, 7), [labA, labB])]
      ∧ okHasIniWrite (processModsMain overlappingModsTxt plainIni overlappingFs) = true
      ∧ detect_conflicts overlappingSrcs = true :=
  ⟨rfl, rfl, rfl⟩

/-! ## Claim C3 -/

/-- Claim C3, counterexample: the key-value configuration rewrite of
`process_mods.py` (`update_ini`) is *not* performed via a temporary sibling
plus rename — its write trace at this input is a single direct write to the
target path. -/
theorem claim_C3_counterexample :
    isAtomicReplace iniPathLit
      (update_ini_ops iniPathLit plainIni ("m".toList) ("w".toList)) = false := rfl

/-- Claim C3, amended: the JSON registry writer `save_json`
(`init/cleanup.py`) does follow the write-to-temporary-sibling-then-rename
pattern, for every path and content; the ini rewrite `update_ini` instead
performs a single direct write of the new content to the target path (no
temporary file, no rename), so an interrupted ini write is not protected by a
rename. -/
theorem claim_C3 (path : Str) (content : List Str) (ini_path : Str)
    (doc : List Str) (mods_csv workshop_csv : Str) :
    isAtomicReplace path (save_json_ops path content) = true
      ∧ update_ini_ops ini_path doc mods_csv workshop_csv =
        [FsOp.write ini_path (update_ini doc mods_csv workshop_csv)] := by
  constructor
  · have h : ¬ (path ++ tmpSuffix = path) := by
      intro h
      have hlen := congrArg List.length h
      simp [tmpSuffix] at hlen
    simp [save_json_ops, isAtomicReplace, h]
  · rfl

/-! ## Claim C7 -/

/-- Claim C7: whenever `ensure_topological_order` succeeds it returns a
complete order (never a truncated one); on the three-mod cycle A→B→C→A it fails
naming all three mods; and when a cycle coexists with removable mods the
unresolved set it reports is exactly the set of mods the Kahn elimination did
not remove (here A, B, C but not D). -/
theorem claim_C7 :
    (∀ (mod_ids : List Str) (rm : List (Str × List Str)) (order notes : List Str),
        ensure_topological_order mod_ids rm = .ok (order, notes) →
        order.length = mod_ids.length)
      ∧ ensure_topological_order [idA, idB, idC] cycRM = .error (.cycle [idA, idB, idC])
      ∧ ensure_topological_order [idD, idA, idB, idC] cycRM2 =
          .error (.cycle [idA, idB, idC]) := by
  refine ⟨?_, rfl, rfl⟩
  intro mod_ids rm order notes h
  unfold ensure_topological_order at h
  split at h
  · exact absurd h (by simp)
  · split at h
    · rw [Except.ok.injEq, Prod.mk.injEq] at h
      rw [h.1]
    · dsimp only at h
      split at h
      · rw [Except.ok.injEq, Prod.mk.injEq] at h
        rw [← h.1]
        assumption
      · exact absurd h (by simp)

/-- Witness for claim C7: the completeness statement applied at a concrete
input that exercises the Kahn path. -/
theorem claim_C7_witness :
    ([idA, idB] : List Str).length = ([idB, idA] : List Str).length :=
  claim_C7.1 [idB, idA] chainRM [idA, idB] [idB, idA] (by rfl)

end PZ

namespace PZ

/-! ## Claims C5 and C6 -/

/-- The violation search succeeds exactly when a listed mod declares a known
prerequisite that is not listed. -/
theorem findDepViolation_eq_none (mod_ids : List Str) (rm : List (Str × List Str)) :
    findDepViolation mod_ids rm = none ↔
      ∀ x ∈ mod_ids, ∀ y ∈ reqGet rm x, ¬ (reqHas rm y = true ∧ y ∉ mod_ids) := by
  rw [findDepViolation, List.findSome?_eq_none_iff]
  constructor
  · intro h x hx y hy hc
    have := h x hx
    rw [List.findSome?_eq_none_iff] at this
    have := this y hy
    rw [if_pos hc] at this
    cases this
  · intro h x hx
    rw [List.findSome?_eq_none_iff]
    intro y hy
    rw [if_neg (h x hx y hy)]

/-- What a found violation pair satisfies. -/
theorem findDepViolation_eq_some (mod_ids : List Str) (rm : List (Str × List Str))
    (x y : Str) (h : findDepViolation mod_ids rm = some (x, y)) :
    x ∈ mod_ids ∧ y ∈ reqGet rm x ∧ reqHas rm y = true ∧ y ∉ mod_ids := by
  rw [findDepViolation] at h
  obtain ⟨a, ha, hf⟩ := List.exists_of_findSome?_eq_some h
  obtain ⟨b, hb, hg⟩ := List.exists_of_findSome?_eq_some hf
  by_cases hc : reqHas rm b = true ∧ b ∉ mod_ids
  · rw [if_pos hc] at hg
    obtain ⟨rfl, rfl⟩ : a = x ∧ b = y := by
      constructor <;> · injection hg with hg2; injection hg2
    exact ⟨ha, hb, hc.1, hc.2⟩
  · rw [if_neg hc] at hg; cases hg

/-- Claim C5, counterexample: an input whose order places every known,
*present* prerequisite before its dependent (vacuously — X's only prerequisite
Y is known but absent), on which `ensure_topological_order` nevertheless does
not return the input: it aborts with the missing-dependency error. -/
theorem claim_C5_counterexample :
    (∀ m ∈ c5Mods, ∀ d ∈ reqGet c5RM m, reqHas c5RM d = true → d ∈ c5Mods →
        c5Mods.indexOf d < c5Mods.indexOf m)
      ∧ ensure_topological_order c5Mods c5RM ≠ .ok (c5Mods, []) := by
  refine ⟨by decide, fun h => ?_⟩
  rw [show ensure_topological_order c5Mods c5RM =
      .error (.missingDep idX idY) from rfl] at h
  cases h

/-- Claim C5, amended: if, additionally, every known declared prerequisite of
a listed mod is itself listed (so the missing-dependency check cannot fire),
and the input order places every known prerequisite strictly before each mod
that requires it, then `ensure_topological_order` returns exactly the input
list together with an empty list of reorder notes. -/
theorem claim_C5 (mod_ids : List Str) (rm : List (Str × List Str))
    (hpresent : ∀ x ∈ mod_ids, ∀ y ∈ reqGet rm x, reqHas rm y = true → y ∈ mod_ids)
    (hord : ∀ x ∈ mod_ids, ∀ y ∈ reqGet rm x, reqHas rm y = true →
        mod_ids.indexOf y < mod_ids.indexOf x) :
    ensure_topological_order mod_ids rm = .ok (mod_ids, []) := by
  have hviol : findDepViolation mod_ids rm = none := by
    rw [findDepViolation_eq_none]
    intro x hx y hy hc
    exact hc.2 (hpresent x hx y hy hc.1)
  have hord2 : depsOrdered mod_ids rm = true := by
    rw [depsOrdered, List.all_eq_true]
    intro x hx
    rw [List.all_eq_true]
    intro y hy
    obtain ⟨hy1, hy2⟩ := (mem_prereqsOf rm x y).1 hy
    simpa using hord x hx y hy1 hy2
  rw [ensure_topological_order, hviol]
  simp [hord2]

/-- Witness for the amended claim C5: a two-mod chain already in order is
returned unchanged. -/
theorem claim_C5_witness :
    ensure_topological_order [idA, idB] chainRM = .ok ([idA, idB], []) :=
  claim_C5 [idA, idB] chainRM (by decide) (by decide)

/-- Claim C6: during dependency-edge construction, (1) if some listed mod X
declares a prerequisite Y whose metadata is known while Y is not listed, the
run fails with the missing-dependency error naming such a pair (X, Y); (2) a
prerequisite with unknown metadata never contributes an edge; (3) when no
known-but-absent prerequisite exists, the run never fails with a
missing-dependency error. -/
theorem claim_C6 (mod_ids : List Str) (rm : List (Str × List Str)) :
    ((∃ x ∈ mod_ids, ∃ y ∈ reqGet rm x, reqHas rm y = true ∧ y ∉ mod_ids) →
      ∃ x y, x ∈ mod_ids ∧ y ∈ reqGet rm x ∧ reqHas rm y = true ∧ y ∉ mod_ids ∧
        ensure_topological_order mod_ids rm = .error (.missingDep x y))
      ∧ (∀ x y, y ∈ reqGet rm x → reqHas rm y = false → y ∉ prereqsOf rm x)
      ∧ ((¬ ∃ x ∈ mod_ids, ∃ y ∈ reqGet rm x, reqHas rm y = true ∧ y ∉ mod_ids) →
        ∀ x y, ensure_topological_order mod_ids rm ≠ .error (.missingDep x y)) := by
  refine ⟨?_, ?_, ?_⟩
  · intro hex
    cases hv : findDepViolation mod_ids rm with
    | none =>
      rw [findDepViolation_eq_none] at hv
      obtain ⟨x, hx, y, hy, hc⟩ := hex
      exact absurd hc (hv x hx y hy)
    | some p =>
      obtain ⟨x, y⟩ := p
      obtain ⟨h1, h2, h3, h4⟩ := findDepViolation_eq_some mod_ids rm x y hv
      refine ⟨x, y, h1, h2, h3, h4, ?_⟩
      rw [ensure_topological_order, hv]
  · intro x y hy hfalse hmem
    exact absurd ((mem_prereqsOf rm x y).1 hmem).2 (by simp [hfalse])
  · intro hnone x y h
    have hv : findDepViolation mod_ids rm = none := by
      rw [findDepViolation_eq_none]
      intro a ha b hb hc
      exact hnone ⟨a, ha, b, hb, hc⟩
    rw [ensure_topological_order, hv] at h
    dsimp only at h
    split at h
    · cases h
    · split at h
      · cases h
      · injection h with h2
        cases h2

/-- Witness for claim C6: the concrete X-requires-absent-Y input produces the
missing-dependency error naming X and Y. -/
theorem claim_C6_witness :
    ∃ x y, x ∈ c5Mods ∧ y ∈ reqGet c5RM x ∧ reqHas c5RM y = true ∧ y ∉ c5Mods ∧
      ensure_topological_order c5Mods c5RM = .error (.missingDep x y) :=
  (claim_C6 c5Mods c5RM).1 ⟨idX, by decide, idY, by decide, by decide, by decide⟩

end PZ


namespace PZ

/-! ## Claim C10 -/

theorem firstOcc_nil {α : Type} [DecidableEq α] : firstOcc ([] : List α) = [] := by
  rw [firstOcc]

theorem firstOcc_cons {α : Type} [DecidableEq α] (x : α) (l : List α) :
    firstOcc (x :: l) = x :: firstOcc (l.filter (fun y => y ≠ x)) := by
  rw [firstOcc]

theorem mem_firstOcc_of_le {α : Type} [DecidableEq α] :
    ∀ (n : Nat) (l : List α), l.length ≤ n → ∀ a, (a ∈ firstOcc l ↔ a ∈ l) := by
  intro n
  induction n with
  | zero =>
    intro l hl a
    rw [List.length_eq_zero.1 (Nat.le_zero.1 hl), firstOcc_nil]
  | succ n ih =>
    intro l hl a
    cases l with
    | nil => rw [firstOcc_nil]
    | cons x t =>
      rw [firstOcc_cons]
      have ht : (t.filter (fun y => y ≠ x)).length ≤ n :=
        le_trans (List.length_filter_le _ _) (Nat.le_of_succ_le_succ hl)
      rcases eq_or_ne a x with rfl | hax
      · simp
      · rw [List.mem_cons, List.mem_cons]
        simp only [hax, false_or]
        rw [ih _ ht a, List.mem_filter]
        constructor
        · exact fun h => h.1
        · intro h
          exact ⟨h, by simpa using hax⟩

theorem mem_firstOcc {α : Type} [DecidableEq α] (l : List α) (a : α) :
    a ∈ firstOcc l ↔ a ∈ l :=
  mem_firstOcc_of_le l.length l le_rfl a

theorem firstOcc_nodup_of_le {α : Type} [DecidableEq α] :
    ∀ (n : Nat) (l : List α), l.length ≤ n → (firstOcc l).Nodup := by
  intro n
  induction n with
  | zero =>
    intro l hl
    rw [List.length_eq_zero.1 (Nat.le_zero.1 hl), firstOcc_nil]
    exact List.nodup_nil
  | succ n ih =>
    intro l hl
    cases l with
    | nil => rw [firstOcc_nil]; exact List.nodup_nil
    | cons x t =>
      rw [firstOcc_cons]
      have ht : (t.filter (fun y => y ≠ x)).length ≤ n :=
        le_trans (List.length_filter_le _ _) (Nat.le_of_succ_le_succ hl)
      refine List.nodup_cons.2 ⟨fun hc => ?_, ih _ ht⟩
      have := (mem_firstOcc_of_le n _ ht x).1 hc
      simp at this

theorem firstOcc_nodup {α : Type} [DecidableEq α] (l : List α) :
    (firstOcc l).Nodup :=
  firstOcc_nodup_of_le l.length l le_rfl

/-- The set-guarded accumulation loop computes `firstOcc` of the not-yet-seen
elements (stated over mod-id strings, matching `parse_mods_txt`). -/
theorem dedup_foldl :
    ∀ (l acc : List Str),
      l.foldl (fun acc x => if x ∈ acc then acc else acc ++ [x]) acc
        = acc ++ firstOcc (l.filter (fun x => x ∉ acc)) := by
  intro l
  induction l with
  | nil => intro acc; simp [firstOcc_nil]
  | cons x t ih =>
    intro acc
    by_cases hx : x ∈ acc
    · rw [List.foldl_cons, if_pos hx, ih]
      have : t.filter (fun y => y ∉ acc) = (x :: t).filter (fun y => y ∉ acc) := by
        rw [List.filter_cons]
        simp [hx]
      rw [this]
    · rw [List.foldl_cons, if_neg hx, ih]
      have h1 : (x :: t).filter (fun y => y ∉ acc) =
          x :: t.filter (fun y => y ∉ acc) := by
        rw [List.filter_cons]
        simp [hx]
      have h2 : t.filter (fun y => y ∉ acc ++ [x]) =
          (t.filter (fun y => y ∉ acc)).filter (fun y => y ≠ x) := by
        rw [List.filter_filter]
        apply List.filter_congr
        intro y _
        by_cases hy1 : y ∈ acc <;> by_cases hy2 : y = x <;> simp [hy1, hy2]
      rw [h1, firstOcc_cons, h2, List.append_assoc]
      rfl

end PZ

namespace PZ

theorem foldl_flatMap {α β γ : Type} (g : β → List α) (f : γ → α → γ) :
    ∀ (l : List β) (init : γ),
      (l.flatMap g).foldl f init = l.foldl (fun a b => (g b).foldl f a) init := by
  intro l
  induction l with
  | nil => intro init; rfl
  | cons b t ih =>
    intro init
    rw [List.flatMap_cons, List.foldl_append, List.foldl_cons, ih]


theorem parseBlocksGo_wf :
    ∀ (lines : List Str) (cur : Option ModBlock),
      (∀ b, cur = some b → wfBlock b) →
      ∀ b ∈ parseBlocksGo lines cur, wfBlock b := by
  intro lines
  induction lines with
  | nil =>
    intro cur hcur b hb
    rw [parseBlocksGo] at hb
    cases cur with
    | none => cases hb
    | some b0 =>
      simp only [Option.toList, List.mem_singleton] at hb
      subst hb
      exact hcur _ rfl
  | cons raw rest ih =>
    intro cur hcur b hb
    simp only [parseBlocksGo] at hb
    split at hb
    · exact ih cur hcur b hb
    · split at hb
      · rcases List.mem_append.1 hb with h | h
        · cases cur with
          | none => cases h
          | some b0 =>
            simp only [Option.toList, List.mem_singleton] at h
            subst h
            exact hcur _ rfl
        · exact ih none (by intro b2 hb2; cases hb2) b h
      · split at hb
        · rcases List.mem_append.1 hb with h | h
          · cases cur with
            | none => cases h
            | some b0 =>
              simp only [Option.toList, List.mem_singleton] at h
              subst h
              exact hcur _ rfl
          · refine ih _ ?_ b h
            intro b2 hb2
            injection hb2 with hb2
            rw [← hb2]
            exact ⟨List.nodup_nil, by intro m hm; cases hm⟩
        · split at hb
          · exact ih none (by intro b2 hb2; cases hb2) b hb
          · rename_i b0
            split at hb
            · split at hb
              · rename_i hcond
                refine ih _ ?_ b hb
                intro b2 hb2
                injection hb2 with hb2
                rw [← hb2]
                obtain ⟨hnd, hne⟩ := hcur b0 rfl
                simp only [Bool.and_eq_true, Bool.not_eq_true',
                  decide_eq_true_eq] at hcond
                constructor
                · exact List.Nodup.append hnd (List.nodup_singleton _)
                    (by simpa [List.disjoint_singleton] using hcond.2)
                · intro m hm
                  rcases List.mem_append.1 hm with h | h
                  · exact hne m h
                  · rcases List.mem_singleton.1 h with rfl
                    exact hcond.1
              · exact ih _ hcur b hb
            · exact ih _ hcur b hb

theorem parse_mods_blocks_wf (lines : List Str) :
    ∀ b ∈ parse_mods_blocks lines, wfBlock b := by
  refine parseBlocksGo_wf lines none ?_
  intro b hb
  cases hb

/-- Claim C10: `parse_mods_txt` returns duplicate-free workshop-id and mod-id
lists, each equal to the first-occurrence de-duplication (in document order) of
the raw per-block occurrences; within one block, repeats are already dropped
at parse time.  Later duplicates are dropped, not reported: the function is
total and simply returns the de-duplicated lists. -/
theorem claim_C10 (lines : List Str) :
    (parse_mods_txt lines).1 =
        firstOcc ((parse_mods_blocks lines).map (fun b => b.workshop_id))
      ∧ (parse_mods_txt lines).2 =
        firstOcc ((parse_mods_blocks lines).flatMap (fun b => b.mod_ids))
      ∧ (parse_mods_txt lines).1.Nodup
      ∧ (parse_mods_txt lines).2.Nodup
      ∧ ∀ b ∈ parse_mods_blocks lines, b.mod_ids.Nodup := by
  have hws : (parse_mods_txt lines).1 =
      firstOcc ((parse_mods_blocks lines).map (fun b => b.workshop_id)) := by
    show (parse_mods_blocks lines).foldl _ [] = _
    rw [← List.foldl_map (fun b : ModBlock => b.workshop_id)
      (fun acc x => if x ∈ acc then acc else acc ++ [x]), dedup_foldl]
    simp
  have hms : (parse_mods_txt lines).2 =
      firstOcc ((parse_mods_blocks lines).flatMap (fun b => b.mod_ids)) := by
    show (parse_mods_blocks lines).foldl _ [] = _
    rw [← foldl_flatMap (fun b : ModBlock => b.mod_ids)
      (fun acc2 mid => if !mid.isEmpty && mid ∉ acc2 then acc2 ++ [mid] else acc2)]
    have hne : ∀ m ∈ (parse_mods_blocks lines).flatMap (fun b => b.mod_ids),
        m.isEmpty = false := by
      intro m hm
      obtain ⟨b, hb, hmb⟩ := List.mem_flatMap.1 hm
      exact (parse_mods_blocks_wf lines b hb).2 m hmb
    have hext : List.foldl
        (fun acc2 mid => if !mid.isEmpty && mid ∉ acc2 then acc2 ++ [mid] else acc2)
        ([] : List Str) ((parse_mods_blocks lines).flatMap (fun b => b.mod_ids))
        = List.foldl (fun acc x => if x ∈ acc then acc else acc ++ [x]) []
          ((parse_mods_blocks lines).flatMap (fun b => b.mod_ids)) := by
      apply List.foldl_ext
      intro a x hx
      dsimp only
      rw [hne x hx]
      by_cases hmem : x ∈ a
      · simp [hmem]
      · simp [hmem]
    rw [hext, dedup_foldl]
    simp
  refine ⟨hws, hms, ?_, ?_, ?_⟩
  · rw [hws]; exact firstOcc_nodup _
  · rw [hms]; exact firstOcc_nodup _
  · intro b hb
    exact (parse_mods_blocks_wf lines b hb).1

end PZ

namespace PZ

/-! ## Claim C9 -/

theorem updateIniGo_pre (mcsv wcsv : Str) :
    ∀ (pre rest : List Str) (wm ww : Bool),
      (∀ l ∈ pre, matchKeyCI modsKey l = false ∧ matchKeyCI workshopItemsKey l = false) →
      updateIniGo mcsv wcsv (pre ++ rest) wm ww false =
        pre ++ updateIniGo mcsv wcsv rest wm ww false := by
  intro pre
  induction pre with
  | nil => intro rest wm ww h; rfl
  | cons l pre ih =>
    intro rest wm ww h
    have hl := h l (List.mem_cons_self _ _)
    rw [List.cons_append, updateIniGo, if_neg (by simp), if_neg (by simp [hl.1]),
      if_neg (by simp [hl.2]),
      ih rest wm ww (fun l2 h2 => h l2 (List.mem_cons_of_mem _ h2)), List.cons_append]

theorem updateIniGo_skip (mcsv wcsv : Str) :
    ∀ (conts rest : List Str) (wm ww : Bool),
      (∀ l ∈ conts, isContinuation l = true) →
      updateIniGo mcsv wcsv (conts ++ rest) wm ww true =
        updateIniGo mcsv wcsv rest wm ww true := by
  intro conts
  induction conts with
  | nil => intro rest wm ww h; rfl
  | cons l conts ih =>
    intro rest wm ww h
    have hl := h l (List.mem_cons_self _ _)
    rw [List.cons_append, updateIniGo, if_pos (by simp [hl])]
    exact ih rest wm ww (fun l2 h2 => h l2 (List.mem_cons_of_mem _ h2))

/-- Claim C9: rewriting a target key replaces the key line with exactly one new
`key=value` line and discards the immediately following continuation lines of
the old value; the first non-continuation line ending the skip and every other
non-target line are preserved byte-for-byte in their original relative
positions (a target key absent from the document is appended at the end, after
them).  Concretely, rewriting `Mods` over `Mods=` + continuations `a`, `b`
yields exactly `Mods=c;d` followed by the unrelated lines unchanged. -/
theorem claim_C9 :
    (∀ (pre conts rest : List Str) (brk mline mcsv wcsv : Str),
      (∀ l ∈ pre, matchKeyCI modsKey l = false ∧ matchKeyCI workshopItemsKey l = false) →
      matchKeyCI modsKey mline = true →
      (∀ l ∈ conts, isContinuation l = true) →
      isContinuation brk = false →
      matchKeyCI modsKey brk = false →
      matchKeyCI workshopItemsKey brk = false →
      (∀ l ∈ rest, matchKeyCI modsKey l = false ∧ matchKeyCI workshopItemsKey l = false) →
      (∀ l ∈ pre ++ mline :: (conts ++ brk :: rest), stripNul l = l) →
      update_ini (pre ++ mline :: (conts ++ brk :: rest)) mcsv wcsv =
        pre ++ (modsEq ++ mcsv) :: brk :: (rest ++ [workshopItemsEq ++ wcsv]))
    ∧ update_ini c9Doc ("c;d".toList) ("1".toList) =
        [modsEq ++ ("c;d".toList), ("# sep".toList), workshopItemsEq ++ ("1".toList)] := by
  constructor
  · intro pre conts rest brk mline mcsv wcsv hpre hm hconts hbrk hbm hbw hrest hnul
    rw [update_ini]
    have hmap : (pre ++ mline :: (conts ++ brk :: rest)).map stripNul =
        pre ++ mline :: (conts ++ brk :: rest) := by
      rw [List.map_congr_left hnul]
      exact List.map_id _
    rw [hmap, updateIniGo_pre _ _ _ _ _ _ hpre, updateIniGo, if_neg (by simp),
      if_pos (by simp [hm]), updateIniGo_skip _ _ _ _ _ _ hconts, updateIniGo,
      if_neg (by simp [hbrk]), if_neg (by simp [hbm]), if_neg (by simp [hbw]),
      ← List.append_nil rest, updateIniGo_pre _ _ _ _ _ _ hrest]
    simp [updateIniGo]
  · rfl

/-- Witness for claim C9: the general rewrite shape applied at a concrete
document. -/
theorem claim_C9_witness :
    update_ini [("# top".toList), modsEq, ("a".toList), ("# sep".toList),
        ("Other=1".toList)] ("c;d".toList) ("9".toList) =
      [("# top".toList), modsEq ++ ("c;d".toList), ("# sep".toList),
        ("Other=1".toList), workshopItemsEq ++ ("9".toList)] :=
  claim_C9.1 [("# top".toList)] [("a".toList)] [("Other=1".toList)]
    ("# sep".toList) modsEq ("c;d".toList) ("9".toList)
    (by decide) (by decide) (by decide) (by decide) (by decide) (by decide)
    (by decide) (by decide)

end PZ

namespace PZ

/-! ## Claim C8 -/


theorem lookupConf_none_of_not_mem_keys {κ : Type} [DecidableEq κ]
    (m : List (κ × List Str)) (k : κ) (h : k ∉ m.map Prod.fst) :
    lookupConf m k = none := by
  rw [lookupConf]
  have : m.find? (fun p => p.1 = k) = none := by
    rw [List.find?_eq_none]
    intro p hp
    simp only [decide_eq_true_eq]
    intro hpk
    exact h (List.mem_map.2 ⟨p, hp, hpk⟩)
  rw [this]
  rfl

/-- Appending under a fresh key. -/
theorem assocAppend_of_not_key {κ : Type} [DecidableEq κ]
    (m : List (κ × List Str)) (c : κ) (lab : Str)
    (h : c ∉ m.map Prod.fst) :
    assocAppend m c lab = m ++ [(c, [lab])] := by
  rw [assocAppend, if_neg]
  simp only [List.any_eq_true, decide_eq_true_eq]
  rintro ⟨p, hp, hpk⟩
  exact h (List.mem_map.2 ⟨p, hp, hpk⟩)

/-- Updating below a head with a different key. -/
theorem assocAppend_cons_ne {κ : Type} [DecidableEq κ]
    (a : κ) (v : List Str) (m : List (κ × List Str)) (c : κ) (lab : Str)
    (hne : a ≠ c) :
    assocAppend ((a, v) :: m) c lab = (a, v) :: assocAppend m c lab := by
  by_cases hmem : m.any (fun p => p.1 = c)
  · rw [assocAppend, if_pos, assocAppend, if_pos hmem, List.map_cons, if_neg (by simpa using hne)]
    simp only [List.any_cons, Bool.or_eq_true]
    exact Or.inr hmem
  · rw [assocAppend, if_neg, assocAppend, if_neg hmem, List.cons_append]
    simp only [List.any_cons, Bool.or_eq_true, decide_eq_true_eq]
    rintro (h | h)
    · exact hne h
    · exact hmem h

/-- Updating a head with the target key (keys unique, so nothing below is
touched). -/
theorem assocAppend_cons_eq {κ : Type} [DecidableEq κ]
    (c : κ) (v : List Str) (m : List (κ × List Str)) (lab : Str)
    (h : c ∉ m.map Prod.fst) :
    assocAppend ((c, v) :: m) c lab = (c, v ++ [lab]) :: m := by
  rw [assocAppend, if_pos (by simp), List.map_cons, if_pos (by simp)]
  congr 1
  have : ∀ p ∈ m, (if p.1 = c then (p.1, p.2 ++ [lab]) else p) = p := by
    intro p hp
    rw [if_neg]
    intro hpk
    exact h (List.mem_map.2 ⟨p, hp, hpk⟩)
  rw [List.map_congr_left this]
  exact List.map_id _

/-- The keys after a `defaultdict` append. -/
theorem keys_assocAppend {κ : Type} [DecidableEq κ]
    (m : List (κ × List Str)) (c : κ) (lab : Str) :
    (assocAppend m c lab).map Prod.fst =
      if c ∈ m.map Prod.fst then m.map Prod.fst else m.map Prod.fst ++ [c] := by
  by_cases hmem : m.any (fun p => p.1 = c)
  · rw [assocAppend, if_pos hmem, if_pos, List.map_map]
    · apply List.map_congr_left
      intro p _
      by_cases hp : p.1 = c <;> simp [hp]
    · simp only [List.any_eq_true, decide_eq_true_eq] at hmem
      obtain ⟨p, hp, hpk⟩ := hmem
      exact List.mem_map.2 ⟨p, hp, hpk⟩
  · rw [assocAppend, if_neg hmem, if_neg, List.map_append]
    · rfl
    · intro hc
      obtain ⟨p, hp, hpk⟩ := List.mem_map.1 hc
      simp only [List.any_eq_true, decide_eq_true_eq] at hmem
      exact hmem ⟨p, hp, hpk⟩

theorem keysNodup_assocAppend {κ : Type} [DecidableEq κ]
    (m : List (κ × List Str)) (c : κ) (lab : Str)
    (h : (m.map Prod.fst).Nodup) :
    ((assocAppend m c lab).map Prod.fst).Nodup := by
  rw [keys_assocAppend]
  by_cases hc : c ∈ m.map Prod.fst
  · rw [if_pos hc]; exact h
  · rw [if_neg hc]
    exact List.Nodup.append h (List.nodup_singleton _)
      (by simpa [List.disjoint_singleton] using hc)

/-- Lookup after a `defaultdict` append, assuming unique keys. -/
theorem lookup_assocAppend {κ : Type} [DecidableEq κ] :
    ∀ (m : List (κ × List Str)) (c k : κ) (lab : Str),
      (m.map Prod.fst).Nodup →
      lookupConf (assocAppend m c lab) k =
        if k = c then some (((lookupConf m c).getD []) ++ [lab])
        else lookupConf m k := by
  intro m
  induction m with
  | nil =>
    intro c k lab _
    by_cases hkc : k = c
    · subst hkc
      simp [assocAppend, lookupConf, List.find?]
    · simp [assocAppend, lookupConf, List.find?, Ne.symm hkc, hkc]
  | cons p m ih =>
    intro c k lab hnd
    obtain ⟨a, v⟩ := p
    rw [List.map_cons, List.nodup_cons] at hnd
    by_cases hac : a = c
    · subst hac
      rw [assocAppend_cons_eq a v m lab hnd.1]
      by_cases hka : k = a
      · subst hka
        simp [lookupConf, List.find?]
      · rw [if_neg hka]
        simp [lookupConf, List.find?, Ne.symm hka]
    · rw [assocAppend_cons_ne a v m c lab hac]
      by_cases hka : k = a
      · subst hka
        rw [if_neg hac]
        simp [lookupConf, List.find?]
      · have h1 : lookupConf ((a, v) :: assocAppend m c lab) k =
            lookupConf (assocAppend m c lab) k := by
          simp [lookupConf, List.find?, Ne.symm hka]
        have h2 : lookupConf ((a, v) :: m) k = lookupConf m k := by
          simp [lookupConf, List.find?, Ne.symm hka]
        have h3 : lookupConf ((a, v) :: m) c = lookupConf m c := by
          simp [lookupConf, List.find?, hac]
        rw [h1, h2, h3, ih c k lab hnd.2]

/-- The per-item fold appends the label once under every claim value of the
item that was not already seen, and preserves key uniqueness. -/
theorem lookup_itemClaimFold_go {κ : Type} [DecidableEq κ] (lab : Str) :
    ∀ (cls : List κ) (m : List (κ × List Str)) (seen : List κ),
      (m.map Prod.fst).Nodup →
      (∀ k : κ,
        lookupConf ((cls.foldl
          (fun (st : List (κ × List Str) × List κ) c =>
            if c ∈ st.2 then st else (assocAppend st.1 c lab, c :: st.2)) (m, seen)).1) k
        = if k ∈ cls ∧ k ∉ seen
            then some (((lookupConf m k).getD []) ++ [lab])
            else lookupConf m k)
      ∧ (((cls.foldl
          (fun (st : List (κ × List Str) × List κ) c =>
            if c ∈ st.2 then st else (assocAppend st.1 c lab, c :: st.2)) (m, seen)).1).map
          Prod.fst).Nodup := by
  intro cls
  induction cls with
  | nil =>
    intro m seen hnd
    refine ⟨fun k => ?_, hnd⟩
    rw [if_neg]
    · rfl
    · rintro ⟨h1, _⟩
      cases h1
  | cons c cls ih =>
    intro m seen hnd
    rw [List.foldl_cons]
    by_cases hc : c ∈ seen
    · rw [if_pos hc]
      obtain ⟨ihl, ihn⟩ := ih m seen hnd
      refine ⟨fun k => ?_, ihn⟩
      rw [ihl k]
      have hcond : (k ∈ cls ∧ k ∉ seen) ↔ (k ∈ c :: cls ∧ k ∉ seen) := by
        constructor
        · rintro ⟨h1, h2⟩; exact ⟨List.mem_cons_of_mem _ h1, h2⟩
        · rintro ⟨h1, h2⟩
          rcases List.mem_cons.1 h1 with rfl | h1
          · exact absurd hc h2
          · exact ⟨h1, h2⟩
      simp only [hcond]
    · rw [if_neg hc]
      have hnd2 : ((assocAppend m c lab).map Prod.fst).Nodup :=
        keysNodup_assocAppend m c lab hnd
      obtain ⟨ihl, ihn⟩ := ih (assocAppend m c lab) (c :: seen) hnd2
      refine ⟨fun k => ?_, ihn⟩
      rw [ihl k]
      by_cases hkc : k = c
      · subst hkc
        rw [if_neg (by rintro ⟨_, h2⟩; exact h2 (List.mem_cons_self _ _)),
          if_pos ⟨List.mem_cons_self _ _, hc⟩,
          lookup_assocAppend m k k lab hnd, if_pos rfl]
      · have h1 : lookupConf (assocAppend m c lab) k = lookupConf m k := by
          rw [lookup_assocAppend m c k lab hnd, if_neg hkc]
        rw [h1]
        have hcond : (k ∈ cls ∧ k ∉ c :: seen) ↔ (k ∈ c :: cls ∧ k ∉ seen) := by
          constructor
          · rintro ⟨h2, h3⟩
            exact ⟨List.mem_cons_of_mem _ h2,
              fun hs => h3 (List.mem_cons_of_mem _ hs)⟩
          · rintro ⟨h2, h3⟩
            rcases List.mem_cons.1 h2 with rfl | h2
            · exact absurd rfl hkc
            · refine ⟨h2, fun hs => ?_⟩
              rcases List.mem_cons.1 hs with rfl | hs
              · exact hkc rfl
              · exact h3 hs
        simp only [hcond]


theorem combineOwn_nil (o : Option (List Str)) : combineOwn o [] = o := by
  cases o with
  | none => rfl
  | some v => simp [combineOwn]

theorem lookup_accumulate_go {κ : Type} [DecidableEq κ] :
    ∀ (items : List (Option (Str × List κ))) (m : List (κ × List Str)),
      (m.map Prod.fst).Nodup →
      (∀ k : κ,
        lookupConf (items.foldl
          (fun m it =>
            match it with
            | none => m
            | some (label, claims) => itemClaimFold label m claims) m) k
        = combineOwn (lookupConf m k) (ownersFromItems items k))
      ∧ ((items.foldl
          (fun m it =>
            match it with
            | none => m
            | some (label, claims) => itemClaimFold label m claims) m).map
          Prod.fst).Nodup := by
  intro items
  induction items with
  | nil =>
    intro m hnd
    exact ⟨fun k => (combineOwn_nil _).symm, hnd⟩
  | cons it items ih =>
    intro m hnd
    rw [List.foldl_cons]
    cases it with
    | none =>
      obtain ⟨ihl, ihn⟩ := ih m hnd
      refine ⟨fun k => ?_, ihn⟩
      rw [ihl k]
      rfl
    | some p =>
      obtain ⟨lab, cls⟩ := p
      have hitem := lookup_itemClaimFold_go lab cls m [] hnd
      obtain ⟨ihl, ihn⟩ := ih (itemClaimFold lab m cls) hitem.2
      refine ⟨fun k => ?_, ihn⟩
      rw [ihl k]
      have hlk : lookupConf (itemClaimFold lab m cls) k =
          if k ∈ cls then some (((lookupConf m k).getD []) ++ [lab])
          else lookupConf m k := by
        have := hitem.1 k
        simpa using this
      rw [hlk]
      have howners : ownersFromItems (some (lab, cls) :: items) k =
          if k ∈ cls then lab :: ownersFromItems items k
          else ownersFromItems items k := by
        rw [ownersFromItems, List.filterMap_cons]
        by_cases hk : k ∈ cls
        · rw [if_pos hk]
          simp [hk]
          rfl
        · rw [if_neg hk]
          simp [hk]
          rfl
      rw [howners]
      by_cases hk : k ∈ cls
      · rw [if_pos hk, if_pos hk]
        cases hv : lookupConf m k <;> simp [combineOwn]
      · rw [if_neg hk, if_neg hk]

theorem lookupConf_filter_len {κ : Type} [DecidableEq κ] :
    ∀ (m : List (κ × List Str)) (k : κ),
      (m.map Prod.fst).Nodup →
      lookupConf (m.filter (fun p => p.2.length > 1)) k =
        match lookupConf m k with
        | none => none
        | some v => if v.length > 1 then some v else none := by
  intro m
  induction m with
  | nil => intro k _; rfl
  | cons p m ih =>
    intro k hnd
    obtain ⟨a, v⟩ := p
    rw [List.map_cons, List.nodup_cons] at hnd
    by_cases hka : k = a
    · subst hka
      by_cases hlen : v.length > 1
      · rw [List.filter_cons, if_pos (by simpa using hlen)]
        simp [lookupConf, List.find?, hlen]
      · rw [List.filter_cons, if_neg (by simpa using hlen)]
        have h1 : lookupConf ((k, v) :: m) k = some v := by
          simp [lookupConf, List.find?]
        rw [h1]
        have h2 : k ∉ (m.filter (fun p => p.2.length > 1)).map Prod.fst := by
          intro hc
          obtain ⟨q, hq, hqk⟩ := List.mem_map.1 hc
          exact hnd.1 (List.mem_map.2 ⟨q, List.mem_of_mem_filter hq, hqk⟩)
        rw [lookupConf_none_of_not_mem_keys _ _ h2]
        simp [hlen]
    · have h1 : lookupConf ((a, v) :: m) k = lookupConf m k := by
        simp [lookupConf, List.find?, Ne.symm hka]
      rw [List.filter_cons]
      by_cases hlen : v.length > 1
      · rw [if_pos (by simpa using hlen)]
        have h2 : lookupConf ((a, v) :: m.filter (fun p => p.2.length > 1)) k =
            lookupConf (m.filter (fun p => p.2.length > 1)) k := by
          simp [lookupConf, List.find?, Ne.symm hka]
        rw [h2, h1, ih k hnd.2]
      · rw [if_neg (by simpa using hlen), h1, ih k hnd.2]

end PZ

namespace PZ

theorem one_le_filterMap_iff {α β : Type} (f : α → Option β) (l : List α) :
    1 ≤ (l.filterMap f).length ↔ ∃ a ∈ l, (f a).isSome = true := by
  constructor
  · intro h
    have hne : l.filterMap f ≠ [] := by
      intro hc
      rw [hc] at h
      cases h
    rcases List.exists_mem_of_ne_nil _ hne with ⟨b, hb⟩
    obtain ⟨a, ha, hfa⟩ := List.mem_filterMap.1 hb
    exact ⟨a, ha, by rw [hfa]; rfl⟩
  · rintro ⟨a, ha, hfa⟩
    have hne : l.filterMap f ≠ [] := by
      intro hc
      rw [List.filterMap_eq_nil_iff] at hc
      rw [hc a ha] at hfa
      cases hfa
    exact List.length_pos.2 hne

theorem two_le_filterMap_iff {α β : Type} [DecidableEq α] (f : α → Option β) :
    ∀ (l : List α), l.Nodup →
      (2 ≤ (l.filterMap f).length ↔
        ∃ a1 ∈ l, ∃ a2 ∈ l, a1 ≠ a2 ∧ (f a1).isSome = true ∧ (f a2).isSome = true) := by
  intro l
  induction l with
  | nil => intro _; simp
  | cons x t ih =>
    intro hnd
    rw [List.nodup_cons] at hnd
    cases hfx : f x with
    | none =>
      rw [List.filterMap_cons_none hfx, ih hnd.2]
      constructor
      · rintro ⟨a1, h1, a2, h2, hne, s1, s2⟩
        exact ⟨a1, List.mem_cons_of_mem _ h1, a2, List.mem_cons_of_mem _ h2, hne, s1, s2⟩
      · rintro ⟨a1, h1, a2, h2, hne, s1, s2⟩
        rcases List.mem_cons.1 h1 with rfl | h1
        · rw [hfx] at s1; cases s1
        · rcases List.mem_cons.1 h2 with rfl | h2
          · rw [hfx] at s2; cases s2
          · exact ⟨a1, h1, a2, h2, hne, s1, s2⟩
    | some b =>
      rw [List.filterMap_cons_some hfx]
      have hlen : 2 ≤ (b :: t.filterMap f).length ↔ 1 ≤ (t.filterMap f).length := by
        rw [List.length_cons]
        omega
      rw [hlen, one_le_filterMap_iff]
      constructor
      · rintro ⟨a, ha, sa⟩
        refine ⟨x, List.mem_cons_self _ _, a, List.mem_cons_of_mem _ ha, ?_, ?_, sa⟩
        · intro he
          exact hnd.1 (he ▸ ha)
        · rw [hfx]; rfl
      · rintro ⟨a1, h1, a2, h2, hne, s1, s2⟩
        rcases List.mem_cons.1 h1 with rfl | h1
        · rcases List.mem_cons.1 h2 with rfl | h2
          · exact absurd rfl hne
          · exact ⟨a2, h2, s2⟩
        · exact ⟨a1, h1, s1⟩

theorem tiledefOwners_eq (ids : List Str) (fs : Str → Option ItemDir) (n : Nat) :
    ownersFromItems (ids.map (fun wid =>
        (fs wid).map (fun it => (it.label, it.modinfos.flatMap (fun mi => mi.tiledefs))))) n
      = tiledefOwners ids fs n := by
  rw [ownersFromItems, List.filterMap_map, tiledefOwners]
  apply List.filterMap_congr
  intro wid _
  dsimp only [Function.comp]
  cases fs wid <;> rfl

theorem coordOwners_eq (ids : List Str) (fs : Str → Option ItemDir) (c : Nat × Nat) :
    ownersFromItems (ids.map (fun wid =>
        (fs wid).map (fun it => (it.label, it.lotheaders)))) c
      = coordOwners ids fs c := by
  rw [ownersFromItems, List.filterMap_map, coordOwners]
  apply List.filterMap_congr
  intro wid _
  dsimp only [Function.comp]
  cases fs wid with
  | none => rfl
  | some it => simp

/-- Lookup characterization of the shared detector pipeline. -/
theorem lookup_accumFilter {κ : Type} [DecidableEq κ]
    (items : List (Option (Str × List κ))) (k : κ) :
    lookupConf ((accumulateClaims items).filter (fun p => p.2.length > 1)) k =
      if 2 ≤ (ownersFromItems items k).length
        then some (ownersFromItems items k) else none := by
  have hacc := lookup_accumulate_go items [] List.nodup_nil
  rw [accumulateClaims, lookupConf_filter_len _ k hacc.2, hacc.1 k]
  cases howners : ownersFromItems items k with
  | nil => rfl
  | cons o os =>
    show (if (o :: os).length > 1 then some (o :: os) else none) =
      if 2 ≤ (o :: os).length then some (o :: os) else none
    rfl

theorem claimsCell_iff (fs : Str → Option ItemDir) (w : Str) (c : Nat × Nat) :
    claimsCell fs w c ↔
      (((fun wid =>
        match fs wid with
        | none => none
        | some it => if c ∈ it.lotheaders then some it.label else none) w : Option Str)).isSome
        = true := by
  rw [claimsCell]
  dsimp only
  cases hfw : fs w with
  | none => simp [hfw]
  | some it =>
    by_cases hc : c ∈ it.lotheaders <;> simp [hfw, hc]

/-- Claim C8: for every claim value, the conflict detectors report exactly the
per-package owner lists — the labels, one per claiming package in input order,
of the packages whose metadata claims the value — and only when at least two
such entries exist; a claim repeated by several metadata files of one package
contributes its label once.  With duplicate-free workshop-id input, a
coordinate is reported iff two *distinct* packages claim it; two packages
claiming cell (5,7) are reported under key (5,7) with both labels in both
processing orders, and a single package repeating a claim is never
reported. -/
theorem claim_C8 (ids : List Str) (fs : Str → Option ItemDir) :
    (∀ n : Nat, lookupConf (check_tiledef_conflicts ids fs) n =
        if 2 ≤ (tiledefOwners ids fs n).length
          then some (tiledefOwners ids fs n) else none)
      ∧ (∀ c : Nat × Nat, lookupConf (check_map_coord_conflicts ids fs) c =
        if 2 ≤ (coordOwners ids fs c).length
          then some (coordOwners ids fs c) else none)
      ∧ (ids.Nodup → ∀ c : Nat × Nat,
        (2 ≤ (coordOwners ids fs c).length ↔
          ∃ w1 ∈ ids, ∃ w2 ∈ ids, w1 ≠ w2 ∧ claimsCell fs w1 c ∧ claimsCell fs w2 c))
      ∧ check_map_coord_conflicts [widA, widB] overlappingFs = [((5, 7), [labA, labB])]
      ∧ check_map_coord_conflicts [widB, widA] overlappingFs = [((5, 7), [labB, labA])]
      ∧ check_tiledef_conflicts [widA] repeatingFs = []
      ∧ check_map_coord_conflicts [widA] repeatingFs = [] := by
  refine ⟨?_, ?_, ?_, rfl, rfl, rfl, rfl⟩
  · intro n
    rw [check_tiledef_conflicts, lookup_accumFilter, tiledefOwners_eq]
  · intro c
    rw [check_map_coord_conflicts, lookup_accumFilter, coordOwners_eq]
  · intro hnd c
    rw [coordOwners, two_le_filterMap_iff _ ids hnd]
    constructor
    · rintro ⟨w1, h1, w2, h2, hne, s1, s2⟩
      exact ⟨w1, h1, w2, h2, hne, (claimsCell_iff fs w1 c).2 s1,
        (claimsCell_iff fs w2 c).2 s2⟩
    · rintro ⟨w1, h1, w2, h2, hne, s1, s2⟩
      exact ⟨w1, h1, w2, h2, hne, (claimsCell_iff fs w1 c).1 s1,
        (claimsCell_iff fs w2 c).1 s2⟩

/-- Witness for claim C8: the distinctness characterization applied to the two
concrete overlapping packages. -/
theorem claim_C8_witness :
    ∃ w1 ∈ [widA, widB], ∃ w2 ∈ [widA, widB], w1 ≠ w2 ∧
      claimsCell overlappingFs w1 (5, 7) ∧ claimsCell overlappingFs w2 (5, 7) :=
  ((claim_C8 [widA, widB] overlappingFs).2.2.1 (by decide) (5, 7)).1 (by decide)

end PZ

namespace PZ

/-! ## Claim C4 -/

theorem indexOf_append_left {α : Type} [BEq α] [LawfulBEq α] (a : α) :
    ∀ (l₁ l₂ : List α), a ∈ l₁ → (l₁ ++ l₂).indexOf a = l₁.indexOf a := by
  intro l₁
  induction l₁ with
  | nil => intro l₂ h; cases h
  | cons b t ih =>
    intro l₂ h
    rw [List.cons_append, List.indexOf_cons, List.indexOf_cons]
    cases hba : b == a with
    | true => rfl
    | false =>
      have ha : a ∈ t := by
        rcases List.mem_cons.1 h with rfl | h2
        · rw [beq_self_eq_true] at hba; cases hba
        · exact h2
      simp [ih l₂ ha]

theorem indexOf_append_right {α : Type} [BEq α] [LawfulBEq α] (a : α) :
    ∀ (l₁ l₂ : List α), a ∉ l₁ →
      (l₁ ++ l₂).indexOf a = l₁.length + l₂.indexOf a := by
  intro l₁
  induction l₁ with
  | nil => intro l₂ _; rw [List.nil_append]; simp
  | cons b t ih =>
    intro l₂ h
    have hba : (b == a) = false := by
      rw [beq_eq_false_iff_ne]
      intro he
      exact h (he ▸ List.mem_cons_self b t)
    rw [List.cons_append, List.indexOf_cons, hba]
    have hat : a ∉ t := fun hc => h (List.mem_cons_of_mem _ hc)
    simp only [cond_false, ih l₂ hat, List.length_cons]
    omega

theorem indexOf_lt_length_of_mem {α : Type} [BEq α] [LawfulBEq α] (a : α) :
    ∀ l : List α, a ∈ l → l.indexOf a < l.length := by
  intro l
  induction l with
  | nil => intro h; cases h
  | cons b t ih =>
    intro h
    rw [List.indexOf_cons, List.length_cons]
    cases hba : b == a with
    | true => simp
    | false =>
      have ha : a ∈ t := by
        rcases List.mem_cons.1 h with rfl | h2
        · rw [beq_self_eq_true] at hba; cases hba
        · exact h2
      simpa using ih ha

theorem indexOf_cons_self_beq {α : Type} [BEq α] [LawfulBEq α] (a : α) (l : List α) :
    (a :: l).indexOf a = 0 := by
  rw [List.indexOf_cons]
  simp


theorem closed_mem {P : Str → List Str} :
    ∀ {l : List Str}, Closed P l → ∀ x ∈ l, ∀ d ∈ P x, d ∈ l := by
  intro l hc
  induction hc with
  | nil => intro x hx; cases hx
  | cons hsub hcl ih =>
    intro y hy d hd
    rcases List.mem_cons.1 hy with rfl | hy
    · exact List.mem_cons_of_mem _ (hsub d hd)
    · exact List.mem_cons_of_mem _ (ih y hy d hd)

theorem closed_indexOf {P : Str → List Str} :
    ∀ {l : List Str}, Closed P l → l.Nodup →
      ∀ y ∈ l, ∀ d ∈ P y, d ∈ l ∧ l.reverse.indexOf d < l.reverse.indexOf y := by
  intro l hc
  induction hc with
  | nil => intro _ y hy; cases hy
  | cons hsub hcl ih =>
    rename_i x t
    intro hnd y hy d hd
    rcases List.mem_cons.1 hy with rfl | hy
    · have hdt : d ∈ t := hsub d hd
      refine ⟨List.mem_cons_of_mem _ hdt, ?_⟩
      rw [List.reverse_cons]
      have hd' : d ∈ t.reverse := List.mem_reverse.2 hdt
      rw [indexOf_append_left d _ _ hd']
      have hx0 : y ∉ t.reverse := by
        rw [List.mem_reverse]
        exact (List.nodup_cons.1 hnd).1
      rw [indexOf_append_right y _ _ hx0, indexOf_cons_self_beq]
      have h1 : t.reverse.indexOf d < t.reverse.length :=
        indexOf_lt_length_of_mem d _ hd'
      omega
    · obtain ⟨hdt, hlt⟩ := ih (List.nodup_cons.1 hnd).2 y hy d hd
      refine ⟨List.mem_cons_of_mem _ hdt, ?_⟩
      rw [List.reverse_cons, indexOf_append_left d _ _ (List.mem_reverse.2 hdt),
        indexOf_append_left y _ _ (List.mem_reverse.2 hy)]
      exact hlt

theorem popMin_eq_none (pos : Str → Nat) :
    ∀ l : List Str, popMin pos l = none ↔ l = [] := by
  intro l
  cases l with
  | nil => simp [popMin]
  | cons x t =>
    constructor
    · intro h
      cases ht : popMin pos t with
      | none =>
        simp only [popMin, ht] at h
        cases h
      | some p =>
        obtain ⟨m2, rest2⟩ := p
        simp only [popMin, ht] at h
        by_cases hle : pos x ≤ pos m2
        · rw [if_pos hle] at h; cases h
        · rw [if_neg hle] at h; cases h
    · intro h; cases h

theorem popMin_perm (pos : Str → Nat) :
    ∀ (l : List Str) (m : Str) (rest : List Str),
      popMin pos l = some (m, rest) → (m :: rest).Perm l := by
  intro l
  induction l with
  | nil => intro m rest h; cases h
  | cons x t ih =>
    intro m rest h
    cases ht : popMin pos t with
    | none =>
      simp only [popMin, ht, Option.some.injEq, Prod.mk.injEq] at h
      obtain ⟨rfl, rfl⟩ := h
      rw [(popMin_eq_none pos t).1 ht]
    | some p =>
      obtain ⟨m2, rest2⟩ := p
      simp only [popMin, ht] at h
      by_cases hle : pos x ≤ pos m2
      · rw [if_pos hle] at h
        simp only [Option.some.injEq, Prod.mk.injEq] at h
        obtain ⟨rfl, rfl⟩ := h
        exact List.Perm.refl _
      · rw [if_neg hle] at h
        simp only [Option.some.injEq, Prod.mk.injEq] at h
        obtain ⟨rfl, rfl⟩ := h
        exact List.Perm.trans (List.Perm.swap _ _ _)
          (List.Perm.cons _ (ih m2 rest2 ht))

/-- Pointwise in-degree after one pop's bookkeeping fold (duplicate-free
dependent list). -/
theorem kahnStepFold_fst :
    ∀ (deps : List Str) (indeg : Str → Int) (heap : List Str), deps.Nodup →
      ∀ x, (kahnStepFold indeg heap deps).1 x =
        if x ∈ deps then indeg x - 1 else indeg x := by
  intro deps
  induction deps with
  | nil =>
    intro indeg heap _ x
    rw [if_neg (by intro h; cases h)]
    rfl
  | cons d ds ih =>
    intro indeg heap hnd x
    rw [List.nodup_cons] at hnd
    have hstep : kahnStepFold indeg heap (d :: ds) =
        kahnStepFold (fun z => if z = d then indeg d - 1 else indeg z)
          (if indeg d - 1 = 0 then heap ++ [d] else heap) ds := by
      rw [kahnStepFold, kahnStepFold, List.foldl_cons]
    rw [hstep, ih _ _ hnd.2 x]
    by_cases hxd : x = d
    · subst hxd
      rw [if_neg hnd.1, if_pos (List.mem_cons_self _ _), if_pos rfl]
    · by_cases hxds : x ∈ ds
      · rw [if_pos hxds, if_pos (List.mem_cons_of_mem _ hxds), if_neg hxd]
      · rw [if_neg hxds, if_neg hxd, if_neg (by
          intro hx
          rcases List.mem_cons.1 hx with h | h
          · exact hxd h
          · exact hxds h)]

/-- The ready list after one pop's bookkeeping fold (duplicate-free dependent
list). -/
theorem kahnStepFold_snd :
    ∀ (deps : List Str) (indeg : Str → Int) (heap : List Str), deps.Nodup →
      (kahnStepFold indeg heap deps).2 =
        heap ++ deps.filter (fun d => indeg d - 1 = 0) := by
  intro deps
  induction deps with
  | nil =>
    intro indeg heap _
    simp [kahnStepFold]
  | cons d ds ih =>
    intro indeg heap hnd
    rw [List.nodup_cons] at hnd
    have hstep : kahnStepFold indeg heap (d :: ds) =
        kahnStepFold (fun z => if z = d then indeg d - 1 else indeg z)
          (if indeg d - 1 = 0 then heap ++ [d] else heap) ds := by
      rw [kahnStepFold, kahnStepFold, List.foldl_cons]
    rw [hstep, ih _ _ hnd.2]
    have hfc : ds.filter (fun e => (if e = d then indeg d - 1 else indeg e) - 1 = 0) =
        ds.filter (fun e => indeg e - 1 = 0) := by
      apply List.filter_congr
      intro e he
      rw [if_neg (by intro h; exact hnd.1 (h ▸ he))]
    rw [hfc, List.filter_cons]
    by_cases hc : indeg d - 1 = 0
    · rw [if_pos hc, if_pos (decide_eq_true hc), List.append_assoc]
      rfl
    · rw [if_neg hc, if_neg (by simp [hc])]

end PZ

namespace PZ


theorem eq_singleton_of_length_one {α : Type} {l : List α} {m : α}
    (hlen : l.length = 1) (hm : m ∈ l) : l = [m] := by
  cases l with
  | nil => cases hm
  | cons a t =>
    cases t with
    | nil =>
      obtain rfl := List.mem_singleton.1 hm
      rfl
    | cons b u => simp at hlen

theorem filter_notmem_cons_length {l : List Str} {acc : List Str} {m : Str}
    (hnd : l.Nodup) (hm : m ∈ l.filter (fun d => d ∉ acc)) :
    (l.filter (fun d => d ∉ (m :: acc))).length =
      (l.filter (fun d => d ∉ acc)).length - 1 := by
  have h1 : l.filter (fun d => d ∉ (m :: acc)) =
      (l.filter (fun d => d ∉ acc)).filter (fun d => d ≠ m) := by
    rw [List.filter_filter]
    apply List.filter_congr
    intro d _
    by_cases hd1 : d ∈ acc <;> by_cases hd2 : d = m <;>
      simp [hd1, hd2, List.mem_cons]
  have hnd2 : (l.filter (fun d => d ∉ acc)).Nodup := hnd.filter _
  have h2 : (l.filter (fun d => d ∉ acc)).filter (fun d => d ≠ m) =
      (l.filter (fun d => d ∉ acc)).filter (fun x => x != m) := by
    apply List.filter_congr
    intro d _
    by_cases hdm : d = m <;> simp [hdm]
  rw [h1, h2, ← List.Nodup.erase_eq_filter hnd2, List.length_erase_of_mem hm]

theorem kahnInv_step (mod_ids : List Str) (rm : List (Str × List Str))
    (hnd : mod_ids.Nodup)
    (pos : Str → Nat)
    (heap : List Str) (indeg : Str → Int) (acc : List Str)
    (inv : KahnInv mod_ids (prereqsOf rm) heap indeg acc)
    (m : Str) (rest : List Str)
    (hpop : popMin pos heap = some (m, rest)) :
    KahnInv mod_ids (prereqsOf rm)
      (kahnStepFold indeg rest
        (mod_ids.filter (fun x => m ∈ prereqsOf rm x))).2
      (kahnStepFold indeg rest
        (mod_ids.filter (fun x => m ∈ prereqsOf rm x))).1
      (m :: acc) := by
  have hperm := popMin_perm pos heap m rest hpop
  have hmheap : m ∈ heap := hperm.subset (List.mem_cons_self _ _)
  have hrest_sub : ∀ x ∈ rest, x ∈ heap :=
    fun x hx => hperm.subset (List.mem_cons_of_mem _ hx)
  have hmr_nd : (m :: rest).Nodup := hperm.symm.nodup inv.heap_nd
  have hmnotrest : m ∉ rest := (List.nodup_cons.1 hmr_nd).1
  have hrest_nd : rest.Nodup := (List.nodup_cons.1 hmr_nd).2
  have hdeps_nd : (mod_ids.filter (fun x => m ∈ prereqsOf rm x)).Nodup :=
    hnd.filter _
  have hdep_mem : ∀ x ∈ mod_ids.filter (fun x => m ∈ prereqsOf rm x),
      x ∈ mod_ids ∧ m ∈ prereqsOf rm x := by
    intro x hx
    have h2 := List.mem_filter.1 hx
    exact ⟨h2.1, by simpa using h2.2⟩
  have hdep_not_acc : ∀ x ∈ mod_ids.filter (fun x => m ∈ prereqsOf rm x),
      x ∉ acc := by
    intro x hx hxacc
    exact inv.disj m hmheap
      (closed_mem inv.closed x hxacc m (hdep_mem x hx).2)
  have hdep_not_heap : ∀ x ∈ mod_ids.filter (fun x => m ∈ prereqsOf rm x),
      x ∉ heap := by
    intro x hx hxheap
    exact inv.disj m hmheap (inv.ready x hxheap m (hdep_mem x hx).2)
  have hsnd := kahnStepFold_snd (mod_ids.filter (fun x => m ∈ prereqsOf rm x))
    indeg rest hdeps_nd
  have hfst := kahnStepFold_fst (mod_ids.filter (fun x => m ∈ prereqsOf rm x))
    indeg rest hdeps_nd
  refine ⟨?_, ?_, ?_, ?_, ?_, ?_, ?_, ?_⟩
  · -- heap_sub
    intro x hx
    rw [hsnd] at hx
    rcases List.mem_append.1 hx with h | h
    · exact inv.heap_sub x (hrest_sub x h)
    · exact (hdep_mem x (List.mem_of_mem_filter h)).1
  · -- acc_sub
    intro x hx
    rcases List.mem_cons.1 hx with rfl | h
    · exact inv.heap_sub x hmheap
    · exact inv.acc_sub x h
  · -- heap_nd
    rw [hsnd]
    refine List.Nodup.append hrest_nd (hdeps_nd.filter _) ?_
    intro x hx hx2
    exact hdep_not_heap x (List.mem_of_mem_filter hx2) (hrest_sub x hx)
  · -- acc_nd
    exact List.nodup_cons.2 ⟨inv.disj m hmheap, inv.acc_nd⟩
  · -- disj
    intro x hx hxacc
    rw [hsnd] at hx
    rcases List.mem_cons.1 hxacc with rfl | hxacc2
    · rcases List.mem_append.1 hx with h | h
      · exact hmnotrest h
      · exact hdep_not_heap x (List.mem_of_mem_filter h) hmheap
    · rcases List.mem_append.1 hx with h | h
      · exact inv.disj x (hrest_sub x h) hxacc2
      · exact hdep_not_acc x (List.mem_of_mem_filter h) hxacc2
  · -- ready
    intro x hx d hd
    rw [hsnd] at hx
    rcases List.mem_append.1 hx with h | h
    · exact List.mem_cons_of_mem _ (inv.ready x (hrest_sub x h) d hd)
    · have hxdeps := List.mem_of_mem_filter h
      have hxdeg : indeg x - 1 = 0 := by
        have := (List.mem_filter.1 h).2
        simpa using this
      obtain ⟨hxmod, hmPx⟩ := hdep_mem x hxdeps
      have hxnacc : x ∉ acc := hdep_not_acc x hxdeps
      have hdeg := inv.deg x hxmod hxnacc
      have hlen1 : ((prereqsOf rm x).filter (fun d => d ∉ acc)).length = 1 := by
        omega
      have hm_in : m ∈ (prereqsOf rm x).filter (fun d => d ∉ acc) :=
        List.mem_filter.2 ⟨hmPx, decide_eq_true (inv.disj m hmheap)⟩
      have hsing := eq_singleton_of_length_one hlen1 hm_in
      by_cases hdacc : d ∈ acc
      · exact List.mem_cons_of_mem _ hdacc
      · have hdmem : d ∈ (prereqsOf rm x).filter (fun d => d ∉ acc) :=
          List.mem_filter.2 ⟨hd, decide_eq_true hdacc⟩
        rw [hsing] at hdmem
        obtain rfl := List.mem_singleton.1 hdmem
        exact List.mem_cons_self _ _
  · exact Closed.cons (inv.ready m hmheap) inv.closed
  · -- deg
    intro x hxmod hxnacc
    have hxm : x ≠ m := fun he => hxnacc (he ▸ List.mem_cons_self m acc)
    have hxacc : x ∉ acc := fun hc => hxnacc (List.mem_cons_of_mem _ hc)
    rw [hfst x]
    by_cases hxdeps : x ∈ mod_ids.filter (fun z => m ∈ prereqsOf rm z)
    · rw [if_pos hxdeps]
      have hmPx : m ∈ prereqsOf rm x := (hdep_mem x hxdeps).2
      have hdeg := inv.deg x hxmod hxacc
      have hm_in : m ∈ (prereqsOf rm x).filter (fun d => d ∉ acc) :=
        List.mem_filter.2 ⟨hmPx, decide_eq_true (inv.disj m hmheap)⟩
      have hPnd : (prereqsOf rm x).Nodup := pyDedup_nodup _
      have hlen := filter_notmem_cons_length hPnd hm_in
      have hpos : 1 ≤ ((prereqsOf rm x).filter (fun d => d ∉ acc)).length :=
        List.length_pos.2 (List.ne_nil_of_mem hm_in)
      rw [hlen]
      omega
    · rw [if_neg hxdeps]
      have hmnPx : m ∉ prereqsOf rm x := by
        intro hc
        exact hxdeps (List.mem_filter.2 ⟨hxmod, decide_eq_true hc⟩)
      have hfeq : (prereqsOf rm x).filter (fun d => d ∉ (m :: acc)) =
          (prereqsOf rm x).filter (fun d => d ∉ acc) := by
        apply List.filter_congr
        intro d hd
        have hdm : d ≠ m := fun he => hmnPx (he ▸ hd)
        by_cases hdacc : d ∈ acc <;> simp [hdacc, hdm, List.mem_cons]
      rw [hfeq]
      exact inv.deg x hxmod hxacc

end PZ

namespace PZ

theorem kahnLoop_spec (mod_ids : List Str) (rm : List (Str × List Str))
    (hnd : mod_ids.Nodup) (pos : Str → Nat) :
    ∀ (fuel : Nat) (heap : List Str) (indeg : Str → Int) (acc : List Str),
      KahnInv mod_ids (prereqsOf rm) heap indeg acc →
      Closed (prereqsOf rm)
          (kahnLoop pos (fun d => mod_ids.filter (fun x => d ∈ prereqsOf rm x))
            fuel heap indeg acc).reverse
        ∧ (kahnLoop pos (fun d => mod_ids.filter (fun x => d ∈ prereqsOf rm x))
            fuel heap indeg acc).reverse.Nodup
        ∧ ∀ x ∈ (kahnLoop pos (fun d => mod_ids.filter (fun x => d ∈ prereqsOf rm x))
            fuel heap indeg acc).reverse, x ∈ mod_ids := by
  intro fuel
  induction fuel with
  | zero =>
    intro heap indeg acc inv
    rw [kahnLoop, List.reverse_reverse]
    exact ⟨inv.closed, inv.acc_nd, inv.acc_sub⟩
  | succ fuel ih =>
    intro heap indeg acc inv
    rw [kahnLoop]
    cases hpop : popMin pos heap with
    | none =>
      rw [List.reverse_reverse]
      exact ⟨inv.closed, inv.acc_nd, inv.acc_sub⟩
    | some p =>
      obtain ⟨m, rest⟩ := p
      dsimp only
      exact ih _ _ _ (kahnInv_step mod_ids rm hnd pos heap indeg acc inv m rest hpop)

/-- Claim C4: whenever `ensure_topological_order` returns an order for a
duplicate-free mod list, the order is a permutation of the input, and every
effective dependency edge — mod `m` requiring `p`, with `p`'s metadata known —
places `p` strictly before `m` in the returned order. -/
theorem claim_C4 (mod_ids : List Str) (rm : List (Str × List Str))
    (hnd : mod_ids.Nodup) (order notes : List Str)
    (h : ensure_topological_order mod_ids rm = .ok (order, notes)) :
    order.Perm mod_ids
      ∧ ∀ m ∈ mod_ids, ∀ p ∈ reqGet rm m, reqHas rm p = true →
          order.indexOf p < order.indexOf m := by
  unfold ensure_topological_order at h
  split at h
  · exact absurd h (by simp)
  · rename_i hv
    have hPsub : ∀ m ∈ mod_ids, ∀ d ∈ prereqsOf rm m, d ∈ mod_ids := by
      intro m hm d hd
      obtain ⟨hd1, hd2⟩ := (mem_prereqsOf rm m d).1 hd
      by_contra hdnot
      exact (findDepViolation_eq_none mod_ids rm).1 hv m hm d hd1 ⟨hd2, hdnot⟩
    split at h
    · rename_i hord
      rw [Except.ok.injEq, Prod.mk.injEq] at h
      obtain ⟨h1, _⟩ := h
      subst h1
      refine ⟨List.Perm.refl _, ?_⟩
      intro m hm p hp hhas
      rw [depsOrdered, List.all_eq_true] at hord
      have h2 := hord m hm
      rw [List.all_eq_true] at h2
      have hmem : p ∈ prereqsOf rm m := (mem_prereqsOf rm m p).2 ⟨hp, hhas⟩
      simpa using h2 p hmem
    · rename_i hord
      have hinv0 : KahnInv mod_ids (prereqsOf rm)
          (mod_ids.filter (fun m => ((prereqsOf rm m).length : Int) = 0))
          (fun m => ((prereqsOf rm m).length : Int)) [] := by
        refine ⟨?_, ?_, ?_, ?_, ?_, ?_, Closed.nil, ?_⟩
        · intro x hx; exact List.mem_of_mem_filter hx
        · intro x hx; cases hx
        · exact hnd.filter _
        · exact List.nodup_nil
        · intro x _ hc; cases hc
        · intro x hx d hd
          have h2 := (List.mem_filter.1 hx).2
          have h3 : (prereqsOf rm x).length = 0 := by
            have := of_decide_eq_true h2
            omega
          rw [List.length_eq_zero.1 h3] at hd
          cases hd
        · intro x _ _
          have h4 : (prereqsOf rm x).filter (fun d => d ∉ ([] : List Str)) =
              prereqsOf rm x := by
            apply List.filter_eq_self.2
            intro a _
            simp
          rw [h4]
      dsimp only at h
      split at h
      · rename_i hlen
        rw [Except.ok.injEq, Prod.mk.injEq] at h
        obtain ⟨h1, _⟩ := h
        have hspec := kahnLoop_spec mod_ids rm hnd (fun m => mod_ids.indexOf m)
          mod_ids.length
          (mod_ids.filter (fun m => ((prereqsOf rm m).length : Int) = 0))
          (fun m => ((prereqsOf rm m).length : Int)) [] hinv0
        rw [h1] at hspec hlen
        obtain ⟨hclosed, hrnd, hrsub⟩ := hspec
        have hond : order.Nodup := List.nodup_reverse.1 hrnd
        have hosub : ∀ x ∈ order, x ∈ mod_ids := by
          intro x hx
          exact hrsub x (List.mem_reverse.2 hx)
        have hperm : order.Perm mod_ids := by
          refine List.Subperm.perm_of_length_le (hond.subperm hosub) ?_
          rw [hlen]
        refine ⟨hperm, ?_⟩
        intro m hm p hp hhas
        have hmem : p ∈ prereqsOf rm m := (mem_prereqsOf rm m p).2 ⟨hp, hhas⟩
        have hmo : m ∈ order := hperm.mem_iff.2 hm
        have hres := closed_indexOf hclosed hrnd m (List.mem_reverse.2 hmo) p hmem
        rw [List.reverse_reverse] at hres
        exact hres.2
      · exact absurd h (by simp)

/-- Witness for claim C4: the two-mod chain listed in the wrong order is
permuted and the prerequisite ends up first. -/
theorem claim_C4_witness :
    (([idA, idB] : List Str).Perm [idB, idA])
      ∧ ∀ m ∈ [idB, idA], ∀ p ∈ reqGet chainRM m, reqHas chainRM p = true →
          ([idA, idB] : List Str).indexOf p < ([idA, idB] : List Str).indexOf m :=
  claim_C4 [idB, idA] chainRM (by decide) [idA, idB] [idB, idA] (by rfl)

end PZ

namespace PZ

/-! ## Claim C2 -/


theorem wfWid.toMid {w : Str} (h : wfWid w) : wfMid w := by
  obtain ⟨hne, hns⟩ := h
  refine ⟨hne, ?_, ?_⟩
  · cases w with
    | nil => exact absurd rfl hne
    | cons c t =>
      simp only [List.head?_cons, Option.all]
      rw [hns c (List.mem_cons_self _ _)]
      rfl
  · cases hg : w.getLast? with
    | none => rfl
    | some c =>
      have hc : c ∈ w := List.mem_of_mem_getLast? hg
      simp only [Option.all]
      rw [hns c hc]
      rfl

theorem dropWhile_eq_self_of_head {p : Char → Bool} {m : Str}
    (h : (m.head?.all (fun c => !p c)) = true) : m.dropWhile p = m := by
  cases m with
  | nil => rfl
  | cons c t =>
    simp only [List.head?_cons, Option.all] at h
    rw [List.dropWhile_cons, if_neg]
    rw [Bool.not_eq_true'] at h
    simp [h]

theorem takeWhile_eq_self_of {p : Char → Bool} {m : Str}
    (h : ∀ c ∈ m, p c = true) : m.takeWhile p = m := by
  induction m with
  | nil => rfl
  | cons c t ih =>
    rw [List.takeWhile_cons, if_pos (h c (List.mem_cons_self _ _))]
    rw [ih (fun c2 hc2 => h c2 (List.mem_cons_of_mem _ hc2))]

theorem lstrip_eq_self {m : Str} (h : wfMid m) : lstrip m = m :=
  dropWhile_eq_self_of_head h.2.1

theorem rstrip_eq_self {m : Str} (h : wfMid m) : rstrip m = m := by
  obtain ⟨hne, _, hlast⟩ := h
  rw [rstrip, dropWhile_eq_self_of_head, List.reverse_reverse]
  rw [List.head?_reverse]
  exact hlast

theorem strip_eq_self {m : Str} (h : wfMid m) : strip m = m := by
  rw [strip, lstrip_eq_self h, rstrip_eq_self h]

/-- The rendered workshop line is already stripped and round-trips through the
workshop-id regex. -/
theorem wf_workshop_line {w : Str} (hw : wfWid w) :
    wfMid (workshopIdLinePre ++ w) := by
  obtain ⟨hne, hns⟩ := hw
  refine ⟨by simp [workshopIdLinePre], by rfl, ?_⟩
  rw [List.getLast?_append]
  cases hg : w.getLast? with
  | none => exact absurd (List.getLast?_eq_none_iff.mp hg) hne
  | some c =>
    have hc : c ∈ w := List.mem_of_mem_getLast? hg
    simp only [Option.or, Option.all]
    rw [hns c hc]
    rfl

theorem wf_mod_line {m : Str} (hm : wfMid m) : wfMid (modIdLinePre ++ m) := by
  obtain ⟨hne, _, hlast⟩ := hm
  refine ⟨by simp [modIdLinePre], by rfl, ?_⟩
  rw [List.getLast?_append]
  cases hg : m.getLast? with
  | none => exact absurd (List.getLast?_eq_none_iff.mp hg) hne
  | some c =>
    rw [hg] at hlast
    simp only [Option.or]
    exact hlast

end PZ

namespace PZ

theorem matchWorkshopId_render {w : Str} (hw : wfWid w) :
    matchWorkshopId (workshopIdLinePre ++ w) = some w := by
  obtain ⟨hne, hns⟩ := hw
  have hd : w.dropWhile pyIsSpace = w := by
    cases w with
    | nil => rfl
    | cons c t =>
      rw [List.dropWhile_cons, if_neg]
      simp [hns c (List.mem_cons_self _ _)]
  have ht : w.takeWhile (fun c => !pyIsSpace c) = w :=
    takeWhile_eq_self_of (fun c hc => by simp [hns c hc])
  have key : matchWorkshopId (workshopIdLinePre ++ w)
      = (if ((w.dropWhile pyIsSpace).takeWhile (fun c => !pyIsSpace c)).isEmpty
          then none
          else some ((w.dropWhile pyIsSpace).takeWhile (fun c => !pyIsSpace c))) := rfl
  rw [key, hd, ht, if_neg]
  simp [List.isEmpty_iff, hne]

theorem matchModId_render {m : Str} (hm : wfMid m) :
    matchModId (modIdLinePre ++ m) = some m := by
  have hd : m.dropWhile pyIsSpace = m := dropWhile_eq_self_of_head hm.2.1
  have key : matchModId (modIdLinePre ++ m)
      = (if !(m.dropWhile pyIsSpace).isEmpty then some (m.dropWhile pyIsSpace)
         else if !(' ' :: m).isEmpty
         then some ((' ' :: m).drop ((' ' :: m).length - 1))
         else none) := rfl
  rw [key, hd, if_pos]
  simp [List.isEmpty_iff, hm.1]

end PZ

namespace PZ

theorem parseBlocksGo_blank (rest : List Str) (cur : Option ModBlock) :
    parseBlocksGo (([] : Str) :: rest) cur = parseBlocksGo rest cur := rfl

theorem parseBlocksGo_dashes (rest : List Str) (cur : Option ModBlock) :
    parseBlocksGo (dashesLine :: rest) cur
      = cur.toList ++ parseBlocksGo rest none := by
  cases cur <;> rfl

theorem parseBlocksGo_wsline {w : Str} (hw : wfWid w) (rest : List Str)
    (cur : Option ModBlock) :
    parseBlocksGo ((workshopIdLinePre ++ w) :: rest) cur
      = cur.toList ++ parseBlocksGo rest (some ⟨w, []⟩) := by
  have hs : strip (workshopIdLinePre ++ w) = workshopIdLinePre ++ w :=
    strip_eq_self (wf_workshop_line hw)
  have hcons : workshopIdLinePre ++ w = 'W' :: ("orkshop ID: ".toList ++ w) := rfl
  simp only [parseBlocksGo]
  rw [hs, hcons]
  rw [if_neg (by simp), if_neg (by simp [dashesLine]), ← hcons,
    matchWorkshopId_render hw]

theorem parseBlocksGo_modline {m : Str} (hm : wfMid m) (rest : List Str)
    (b : ModBlock) (hnotin : m ∉ b.mod_ids) :
    parseBlocksGo ((modIdLinePre ++ m) :: rest) (some b)
      = parseBlocksGo rest (some ⟨b.workshop_id, b.mod_ids ++ [m]⟩) := by
  have hs : strip (modIdLinePre ++ m) = modIdLinePre ++ m :=
    strip_eq_self (wf_mod_line hm)
  have hcons : modIdLinePre ++ m = 'M' :: ("od ID: ".toList ++ m) := rfl
  have hws : matchWorkshopId (modIdLinePre ++ m) = none := rfl
  simp only [parseBlocksGo]
  rw [hs, hcons]
  rw [if_neg (by simp), if_neg (by simp [dashesLine]), ← hcons, hws,
    matchModId_render hm]
  dsimp only
  rw [strip_eq_self hm, if_pos]
  simp [List.isEmpty_iff, hm.1, hnotin]

end PZ

namespace PZ

theorem parse_modLines (g : List Str) (tail : List Str) :
    ∀ b : ModBlock, (∀ m ∈ g, wfMid m) → g.Nodup → (∀ m ∈ g, m ∉ b.mod_ids) →
    parseBlocksGo ((g.map (fun m => modIdLinePre ++ m)) ++ tail) (some b)
      = parseBlocksGo tail (some ⟨b.workshop_id, b.mod_ids ++ g⟩) := by
  induction g with
  | nil => intro b _ _ _; simp
  | cons m g ih =>
    intro b hwf hnd hnin
    rw [List.map_cons, List.cons_append,
      parseBlocksGo_modline (hwf m (List.mem_cons_self _ _)) _ b
        (hnin m (List.mem_cons_self _ _)),
      ih ⟨b.workshop_id, b.mod_ids ++ [m]⟩
        (fun x hx => hwf x (List.mem_cons_of_mem _ hx))
        (List.Nodup.of_cons hnd)
        (fun x hx => by
          simp only [List.mem_append, List.mem_singleton]
          rintro (h | rfl)
          · exact hnin x (List.mem_cons_of_mem _ hx) h
          · exact (List.nodup_cons.mp hnd).1 hx)]
    simp [List.append_assoc]

theorem parseBlocksGo_blanks (l : List Str) (cur : Option ModBlock)
    (h : ∀ s ∈ l, s = ([] : Str)) : parseBlocksGo l cur = cur.toList := by
  induction l with
  | nil => rfl
  | cons s l ih =>
    rw [h s (List.mem_cons_self _ _), parseBlocksGo_blank]
    exact ih (fun x hx => h x (List.mem_cons_of_mem _ hx))

theorem parseBlocksGo_append_blanks (B : List Str)
    (hB : ∀ s ∈ B, s = ([] : Str)) :
    ∀ (A : List Str) (cur : Option ModBlock),
    parseBlocksGo (A ++ B) cur = parseBlocksGo A cur := by
  intro A
  induction A with
  | nil =>
    intro cur
    rw [List.nil_append, parseBlocksGo_blanks B cur hB]
    rfl
  | cons raw A ih =>
    intro cur
    simp only [List.cons_append, parseBlocksGo]
    split
    · exact ih cur
    · split
      · exact congrArg (cur.toList ++ ·) (ih none)
      · split
        · exact congrArg (cur.toList ++ ·) (ih _)
        · split
          · exact ih none
          · split
            · split
              · exact ih _
              · exact ih _
            · exact ih _

end PZ

namespace PZ

theorem parse_render_go (groups : Str → List Str) :
    ∀ (wids : List Str), (∀ w ∈ wids, wfWid w) →
    (∀ w ∈ wids, ∀ m ∈ groups w, wfMid m) →
    (∀ w ∈ wids, (groups w).Nodup) → ∀ cur,
    parseBlocksGo
      (wids.flatMap (fun wid =>
        (workshopIdLinePre ++ wid) ::
          ((groups wid).map (fun m => modIdLinePre ++ m) ++ [dashesLine, []])))
      cur
      = cur.toList ++ wids.map (fun w => (⟨w, groups w⟩ : ModBlock)) := by
  intro wids
  induction wids with
  | nil => intro _ _ _ cur; simp [parseBlocksGo]
  | cons w wids ih =>
    intro hwf hgm hgn cur
    rw [List.flatMap_cons, List.cons_append,
      parseBlocksGo_wsline (hwf w (List.mem_cons_self _ _)),
      List.append_assoc,
      parse_modLines (groups w) _ ⟨w, []⟩
        (hgm w (List.mem_cons_self _ _)) (hgn w (List.mem_cons_self _ _))
        (fun m _ => List.not_mem_nil m),
      List.cons_append, parseBlocksGo_dashes, List.cons_append,
      parseBlocksGo_blank]
    dsimp only
    simp only [List.nil_append]
    rw [ih (fun x hx => hwf x (List.mem_cons_of_mem _ hx))
        (fun x hx => hgm x (List.mem_cons_of_mem _ hx))
        (fun x hx => hgn x (List.mem_cons_of_mem _ hx)) none]
    simp

theorem parse_dropTrailingBlanks (L : List Str) :
    parse_mods_blocks (dropTrailingBlanks L) = parse_mods_blocks L := by
  have hsplit : dropTrailingBlanks L
      ++ (L.reverse.takeWhile (fun l => l.isEmpty)).reverse = L := by
    rw [dropTrailingBlanks]
    rw [← List.reverse_append, List.takeWhile_append_dropWhile, List.reverse_reverse]
  rw [parse_mods_blocks, parse_mods_blocks]
  conv_rhs => rw [← hsplit]
  rw [parseBlocksGo_append_blanks]
  intro s hs
  rw [List.mem_reverse] at hs
  have := List.mem_takeWhile_imp hs
  exact List.isEmpty_iff.mp this

theorem lookup_graph {α : Type} [BEq α] [LawfulBEq α] {β : Type}
    (f : α → β) : ∀ (l : List α) (w : α), w ∈ l →
    (l.map (fun x => (x, f x))).lookup w = some (f w) := by
  intro l
  induction l with
  | nil => intro w hw; exact absurd hw (List.not_mem_nil w)
  | cons x l ih =>
    intro w hw
    rw [List.map_cons, List.lookup_cons]
    by_cases hx : w = x
    · subst hx
      rw [beq_self_eq_true]
    · rw [beq_eq_false_iff_ne.mpr hx]
      exact ih w (by
        rcases List.mem_cons.mp hw with h | h
        · exact absurd h hx
        · exact h)

end PZ

namespace PZ

theorem parse_render (wids : List Str) (groups : Str → List Str)
    (hwf : ∀ w ∈ wids, wfWid w)
    (hgm : ∀ w ∈ wids, ∀ m ∈ groups w, wfMid m)
    (hgn : ∀ w ∈ wids, (groups w).Nodup) :
    parse_mods_blocks (dropTrailingBlanks (renderOutLines wids groups []))
      = wids.map (fun w => (⟨w, groups w⟩ : ModBlock)) := by
  rw [parse_dropTrailingBlanks, parse_mods_blocks, renderOutLines]
  simp only [List.isEmpty_nil, if_true, List.append_nil]
  rw [parse_render_go groups wids hwf hgm hgn none]
  rfl

end PZ

namespace PZ

theorem blockDict_render (wids : List Str) (groups : Str → List Str)
    {wid : Str} (hmem : wid ∈ wids) :
    blockDict (wids.map (fun w => (⟨w, groups w⟩ : ModBlock))) wid = groups wid := by
  rw [blockDict, List.map_map]
  have hmm : (wids.map ((fun b : ModBlock => (b.workshop_id, b.mod_ids))
      ∘ (fun w => (⟨w, groups w⟩ : ModBlock))))
      = wids.map (fun w => (w, groups w)) := by
    exact List.map_congr_left (fun a _ => rfl)
  rw [hmm, ← List.map_reverse,
    lookup_graph (fun w => groups w) wids.reverse wid (List.mem_reverse.mpr hmem)]
  rfl

theorem render_not_changed (wids mod_ids_sorted : List Str)
    (wtm : List (Str × List Str))
    (horph : newOrphans wtm mod_ids_sorted = []) :
    ¬ rewriteChanged (wids.map (fun w =>
        (⟨w, groupFor wtm mod_ids_sorted w⟩ : ModBlock)))
      wids mod_ids_sorted wtm := by
  intro h
  have hA : (wids.map (fun w =>
      (⟨w, groupFor wtm mod_ids_sorted w⟩ : ModBlock))).map
        (fun b => b.workshop_id) = wids := by
    rw [List.map_map]
    exact List.map_id wids
  have hC : ((wids.map (fun w =>
      (⟨w, groupFor wtm mod_ids_sorted w⟩ : ModBlock))).filter
        (fun b => b.workshop_id ∉ wids)) = [] := by
    rw [List.filter_eq_nil_iff]
    intro b hb
    obtain ⟨w, hw, rfl⟩ := List.mem_map.mp hb
    simp [hw]
  rcases h with h | h | h
  · exact h hA
  · obtain ⟨wid, hmem, hne⟩ := h
    exact hne (blockDict_render wids (groupFor wtm mod_ids_sorted) hmem)
  · rw [hC, horph] at h
    exact h rfl

end PZ

namespace PZ

/-- Claim C2, counterexample to the original statement: with the single listed
mod id `orphan` attributable to no on-disk workshop item, `rewrite_mods_txt`
applied immediately after its own rewrite reports `changed = True` again —
the orphan section it wrote sits under a `#` comment header, carries no
`Workshop ID:` line, and is therefore dropped by `parse_mods_blocks` on the
second pass. -/
theorem claim_C2_counterexample :
    (rewrite_mods_txt (rewrite_mods_txt c2File [widA] [orphanId] []).out
      [widA] [orphanId] []).changed = true := by rfl

/-- Claim C2 (amended): running `rewrite_mods_txt` immediately after its own
rewrite returns `changed = False` and leaves the file byte-identical,
provided every workshop id is a well-formed token, every projected group
entry is a well-formed stripped mod id without duplicates, and no listed mod
id is an orphan (each is attributable to an on-disk workshop item). -/
theorem claim_C2 (fileLines workshop_ids mod_ids_sorted : List Str)
    (wtm : List (Str × List Str))
    (hwf : ∀ w ∈ workshop_ids, wfWid w)
    (hgm : ∀ w ∈ workshop_ids, ∀ m ∈ groupFor wtm mod_ids_sorted w, wfMid m)
    (hgn : ∀ w ∈ workshop_ids, (groupFor wtm mod_ids_sorted w).Nodup)
    (horph : newOrphans wtm mod_ids_sorted = []) :
    (rewrite_mods_txt (rewrite_mods_txt fileLines workshop_ids mod_ids_sorted wtm).out
        workshop_ids mod_ids_sorted wtm).changed = false
      ∧ (rewrite_mods_txt (rewrite_mods_txt fileLines workshop_ids mod_ids_sorted wtm).out
          workshop_ids mod_ids_sorted wtm).out
        = (rewrite_mods_txt fileLines workshop_ids mod_ids_sorted wtm).out := by
  by_cases hc : rewriteChanged (parse_mods_blocks fileLines)
      workshop_ids mod_ids_sorted wtm
  case pos =>
    have hout : (rewrite_mods_txt fileLines workshop_ids mod_ids_sorted wtm).out
        = dropTrailingBlanks (renderOutLines workshop_ids
            (groupFor wtm mod_ids_sorted) (newOrphans wtm mod_ids_sorted)) := by
      simp only [rewrite_mods_txt]
      rw [if_pos hc]
    rw [hout, horph]
    have hp : parse_mods_blocks (dropTrailingBlanks (renderOutLines workshop_ids
        (groupFor wtm mod_ids_sorted) []))
        = workshop_ids.map (fun w =>
            (⟨w, groupFor wtm mod_ids_sorted w⟩ : ModBlock)) :=
      parse_render _ _ hwf hgm hgn
    have hc2 : ¬ rewriteChanged (parse_mods_blocks (dropTrailingBlanks
        (renderOutLines workshop_ids (groupFor wtm mod_ids_sorted) [])))
        workshop_ids mod_ids_sorted wtm := by
      rw [hp]
      exact render_not_changed _ _ _ horph
    constructor
    · simp only [rewrite_mods_txt]
      rw [if_neg hc2]
    · simp only [rewrite_mods_txt]
      rw [if_neg hc2]
  case neg =>
    have hout : (rewrite_mods_txt fileLines workshop_ids mod_ids_sorted wtm).out
        = fileLines := by
      simp only [rewrite_mods_txt]
      rw [if_neg hc]
    rw [hout]
    constructor
    · simp only [rewrite_mods_txt]
      rw [if_neg hc]
    · simp only [rewrite_mods_txt]
      rw [if_neg hc]

/-- Witness for the amended claim C2 at a concrete input: one workshop item
providing one listed mod id; the second run reports no change and keeps the
file identical. -/
theorem claim_C2_witness :
    (∀ w ∈ [widA], wfWid w)
      ∧ (∀ w ∈ [widA], ∀ m ∈ groupFor [(widA, [idA])] [idA] w, wfMid m)
      ∧ (∀ w ∈ [widA], (groupFor [(widA, [idA])] [idA] w).Nodup)
      ∧ newOrphans [(widA, [idA])] [idA] = []
      ∧ ((rewrite_mods_txt (rewrite_mods_txt [] [widA] [idA]
            [(widA, [idA])]).out [widA] [idA] [(widA, [idA])]).changed = false
        ∧ (rewrite_mods_txt (rewrite_mods_txt [] [widA] [idA]
            [(widA, [idA])]).out [widA] [idA] [(widA, [idA])]).out
          = (rewrite_mods_txt [] [widA] [idA] [(widA, [idA])]).out) :=
  ⟨by decide, by decide, by decide, by decide,
    claim_C2 [] [widA] [idA] [(widA, [idA])]
      (by decide) (by decide) (by decide) (by decide)⟩

end PZ
